import Mathlib

/-!
# Verification of the wordguard-filter core

A shallow embedding of the wordguard-filter TypeScript sources
(`src/trie.ts`, `src/normalizer.ts`, `src/evasion-patterns.ts`,
`src/fuzzy-matcher.ts`, `src/filter.ts`, `src/data/loader.ts`) in Lean 4,
together with theorems settling the specification claims.

Modelling conventions:
* A JavaScript string is modelled as a `List Char` of Unicode code points.
* `String.prototype.toLowerCase` is modelled character-wise (`jsToLower`);
  on the ASCII, fullwidth-Latin and Arabic ranges manipulated by this
  library this agrees with JavaScript.
* A regex replace over a one-character class is a character-wise map;
  `split(s).join(t)` is left-to-right non-overlapping substring
  replacement (`replaceSub`).
-/

/-- JS `toLowerCase`, character-wise: ASCII `A`–`Z` and fullwidth `Ａ`–`Ｚ`
are mapped to their lowercase forms; other code points of the fragment this
library manipulates (Arabic letters, symbols, digits, lowercase letters) are
unchanged. -/
def jsToLower (c : Char) : Char :=
  if (0x41 ≤ c.toNat ∧ c.toNat ≤ 0x5A) ∨ (0xFF21 ≤ c.toNat ∧ c.toNat ≤ 0xFF3A) then
    Char.ofNat (c.toNat + 32)
  else c

theorem char_toNat_ofNat {n : Nat} (h : n.isValidChar) : (Char.ofNat n).toNat = n := by
  unfold Char.ofNat
  rw [dif_pos h]
  rfl

theorem char_eq_of_toNat {c d : Char} (h : c.toNat = d.toNat) : c = d := by
  apply Char.eq_of_val_eq
  apply UInt32.eq_of_toBitVec_eq
  apply BitVec.eq_of_toNat_eq
  exact h

theorem jsToLower_toNat (c : Char)
    (h : (0x41 ≤ c.toNat ∧ c.toNat ≤ 0x5A) ∨ (0xFF21 ≤ c.toNat ∧ c.toNat ≤ 0xFF3A)) :
    (jsToLower c).toNat = c.toNat + 32 := by
  unfold jsToLower
  rw [if_pos h]
  apply char_toNat_ofNat
  rcases h with h | h
  · exact Or.inl (by omega)
  · exact Or.inr (by constructor <;> omega)

theorem jsToLower_toNat_out (c : Char)
    (h : ¬((0x41 ≤ c.toNat ∧ c.toNat ≤ 0x5A) ∨ (0xFF21 ≤ c.toNat ∧ c.toNat ≤ 0xFF3A))) :
    jsToLower c = c := by
  unfold jsToLower
  rw [if_neg h]

/-- `toLowerCase` is idempotent (character-wise). -/
theorem jsToLower_idem (c : Char) : jsToLower (jsToLower c) = jsToLower c := by
  by_cases h : (0x41 ≤ c.toNat ∧ c.toNat ≤ 0x5A) ∨ (0xFF21 ≤ c.toNat ∧ c.toNat ≤ 0xFF3A)
  · have ht := jsToLower_toNat c h
    apply jsToLower_toNat_out
    rw [ht]
    rcases h with h | h
    · intro hc
      rcases hc with hc | hc <;> omega
    · intro hc
      rcases hc with hc | hc <;> omega
  · rw [jsToLower_toNat_out c h, jsToLower_toNat_out c h]

/-- `text.toLowerCase()` on a whole string. -/
def lowerStr (s : List Char) : List Char := s.map jsToLower

namespace FuzzyMatcher

/-! ## `FuzzyMatcher.levenshteinDistance` (src/fuzzy-matcher.ts)

The source fills a `(len1+1) × (len2+1)` matrix with
`matrix[i][0] = i`, `matrix[0][j] = j` and
`matrix[i][j] = min(matrix[i-1][j] + 1, matrix[i][j-1] + 1,
matrix[i-1][j-1] + cost)`.  We represent the matrix row by row. -/

/-- Inner loop `for (j = 1; j <= len2; j++)` of `levenshteinDistance`:
`diag` is `matrix[i-1][j-1]`, `left` is `matrix[i][j-1]`, the list argument
is the remainder `matrix[i-1][j..]` of the previous row and the char list
the remainder of `str2`. -/
def levRowAux (c1 : Char) : Nat → Nat → List Nat → List Char → List Nat
  | diag, left, up :: prevRest, c2 :: rest =>
      let cost : Nat := if c1 = c2 then 0 else 1
      let cur := min (min (up + 1) (left + 1)) (diag + cost)
      cur :: levRowAux c1 up cur prevRest rest
  | _, _, _, _ => []

/-- Row `matrix[i]` computed from row `matrix[i-1]` (`prev`); the source
initializes `matrix[i] = [i]` and then runs the inner loop. -/
def levRow (c1 : Char) (i : Nat) (prev : List Nat) (str2 : List Char) : List Nat :=
  i :: levRowAux c1 (prev.headD 0) i prev.tail str2

/-- Outer loop `for (i = 1; i <= len1; i++)` of `levenshteinDistance`. -/
def levRows (str2 : List Char) : List Char → Nat → List Nat → List Nat
  | [], _, prev => prev
  | c1 :: rest, i, prev => levRows str2 rest (i + 1) (levRow c1 i prev str2)

/-- `FuzzyMatcher.levenshteinDistance(str1, str2)`: run the dynamic
program and return `matrix[len1][len2]`, the last entry of the final row. -/
def levenshteinDistance (str1 str2 : List Char) : Nat :=
  (levRows str2 str1 1 (List.range (str2.length + 1))).getLastD 0

/-- Classic Levenshtein distance, textbook recursion with unit costs for
insertion, deletion and substitution. -/
def levClassic : List Char → List Char → Nat
  | [], ys => ys.length
  | xs, [] => xs.length
  | x :: xs, y :: ys =>
      min (min (levClassic xs (y :: ys) + 1) (levClassic (x :: xs) ys + 1))
        (levClassic xs ys + (if x = y then 0 else 1))
  termination_by xs ys => xs.length + ys.length
  decreasing_by all_goals simp_arith

theorem levClassic_nil_left (ys : List Char) : levClassic [] ys = ys.length := by
  simp [levClassic]

theorem levClassic_nil_right (xs : List Char) : levClassic xs [] = xs.length := by
  cases xs <;> simp [levClassic]

theorem levClassic_cons_cons (x y : Char) (xs ys : List Char) :
    levClassic (x :: xs) (y :: ys) =
      min (min (levClassic xs (y :: ys) + 1) (levClassic (x :: xs) ys + 1))
        (levClassic xs ys + (if x = y then 0 else 1)) := by
  simp [levClassic]

theorem nat_min_add_right (a b c : Nat) : min a b + c = min (a + c) (b + c) := by omega

theorem nat_add_min_left (a b c : Nat) : a + min b c = min (a + b) (a + c) := by omega

theorem min3_transpose (x11 x12 x13 x21 x22 x23 x31 x32 x33 : Nat) :
    min (min (min (min x11 x12) x13) (min (min x21 x22) x23)) (min (min x31 x32) x33) =
    min (min (min (min x11 x21) x31) (min (min x12 x22) x32)) (min (min x13 x23) x33) := by
  apply le_antisymm <;>
    refine le_min (le_min (le_min (le_min ?_ ?_) ?_) (le_min (le_min ?_ ?_) ?_))
      (le_min (le_min ?_ ?_) ?_) <;>
    first
      | exact ((min_le_left _ _).trans (min_le_left _ _)).trans
          ((min_le_left _ _).trans (min_le_left _ _))
      | exact ((min_le_left _ _).trans (min_le_left _ _)).trans
          ((min_le_left _ _).trans (min_le_right _ _))
      | exact ((min_le_left _ _).trans (min_le_left _ _)).trans (min_le_right _ _)
      | exact ((min_le_left _ _).trans (min_le_right _ _)).trans
          ((min_le_left _ _).trans (min_le_left _ _))
      | exact ((min_le_left _ _).trans (min_le_right _ _)).trans
          ((min_le_left _ _).trans (min_le_right _ _))
      | exact ((min_le_left _ _).trans (min_le_right _ _)).trans (min_le_right _ _)
      | exact (min_le_right _ _).trans ((min_le_left _ _).trans (min_le_left _ _))
      | exact (min_le_right _ _).trans ((min_le_left _ _).trans (min_le_right _ _))
      | exact (min_le_right _ _).trans (min_le_right _ _)

theorem minShuffle (A B C D E F G H K p q : Nat) :
    min (min (min (min (A+1) (B+1)) (C+p) + 1) (min (min (D+1) (E+1)) (F+p) + 1))
      (min (min (G+1) (H+1)) (K+p) + q) =
    min (min (min (min (A+1) (D+1)) (G+q) + 1) (min (min (B+1) (E+1)) (H+q) + 1))
      (min (min (C+1) (F+1)) (K+q) + p) := by
  simp only [nat_min_add_right, nat_add_min_left]
  ring_nf
  exact min3_transpose _ _ _ _ _ _ _ _ _

set_option maxHeartbeats 1000000 in
/-- The "last character" recurrence for the classic Levenshtein distance. -/
theorem levClassic_concat_concat (a b : Char) (as bs : List Char) :
    levClassic (as ++ [a]) (bs ++ [b]) =
      min (min (levClassic as (bs ++ [b]) + 1) (levClassic (as ++ [a]) bs + 1))
        (levClassic as bs + (if a = b then 0 else 1)) := by
  suffices h : ∀ n as bs, as.length + bs.length ≤ n →
      levClassic (as ++ [a]) (bs ++ [b]) =
        min (min (levClassic as (bs ++ [b]) + 1) (levClassic (as ++ [a]) bs + 1))
          (levClassic as bs + (if a = b then 0 else 1)) from
    h (as.length + bs.length) as bs le_rfl
  intro n
  induction n with
  | zero =>
      intro as bs h
      have ha : as = [] := by
        cases as with
        | nil => rfl
        | cons x t => simp at h
      have hb : bs = [] := by
        cases bs with
        | nil => rfl
        | cons x t => simp at h
      subst ha; subst hb
      simp [levClassic_cons_cons, levClassic_nil_left, levClassic_nil_right]
  | succ n ih =>
      intro as bs h
      cases as with
      | nil =>
          cases bs with
          | nil =>
              simp [levClassic_cons_cons, levClassic_nil_left, levClassic_nil_right]
          | cons y bs' =>
              have h1 := ih [] bs' (by simp at h ⊢; omega)
              simp only [List.nil_append] at h1 ⊢
              rw [List.cons_append, levClassic_cons_cons a y ([] : List Char) (bs' ++ [b]),
                h1, levClassic_cons_cons a y ([] : List Char) bs']
              simp only [levClassic_nil_left, List.length_cons, List.length_append,
                List.length_singleton, List.length_nil]
              split_ifs <;> omega
      | cons x as' =>
          cases bs with
          | nil =>
              have h1 := ih as' [] (by simp at h ⊢; omega)
              simp only [List.nil_append] at h1 ⊢
              rw [List.cons_append, levClassic_cons_cons x b (as' ++ [a]) ([] : List Char),
                h1, levClassic_cons_cons x b as' ([] : List Char)]
              simp only [levClassic_nil_right, levClassic_nil_left, List.length_cons,
                List.length_append, List.length_singleton, List.length_nil]
              split_ifs <;> omega
          | cons y bs' =>
              have h1 := ih as' (y :: bs') (by simp at h ⊢; omega)
              have h2 := ih (x :: as') bs' (by simp at h ⊢; omega)
              have h3 := ih as' bs' (by simp at h ⊢; omega)
              simp only [List.cons_append] at h1 h2 h3 ⊢
              rw [levClassic_cons_cons x y (as' ++ [a]) (bs' ++ [b])]
              rw [levClassic_cons_cons x y as' (bs' ++ [b])]
              rw [levClassic_cons_cons x y (as' ++ [a]) bs']
              rw [levClassic_cons_cons x y as' bs']
              rw [h1, h2, h3]
              exact minShuffle _ _ _ _ _ _ _ _ _ _ _

/-- The row segment of Levenshtein distances `levClassic as (bsDone ++ p)`
for each nonempty prefix `p` of `rest` (columns `|bsDone|+1 .. |bsDone|+|rest|`
of the matrix row for `as`). -/
def specRowFrom (as : List Char) : List Char → List Char → List Nat
  | _, [] => []
  | bsDone, c2 :: rest => levClassic as (bsDone ++ [c2]) :: specRowFrom as (bsDone ++ [c2]) rest

theorem levRowAux_cons (c1 c2 : Char) (diag left up : Nat) (prevRest : List Nat)
    (rest : List Char) :
    levRowAux c1 diag left (up :: prevRest) (c2 :: rest) =
      min (min (up + 1) (left + 1)) (diag + (if c1 = c2 then 0 else 1)) ::
        levRowAux c1 up (min (min (up + 1) (left + 1)) (diag + (if c1 = c2 then 0 else 1)))
          prevRest rest := rfl

theorem specRowFrom_cons (as bsDone : List Char) (c2 : Char) (rest : List Char) :
    specRowFrom as bsDone (c2 :: rest) =
      levClassic as (bsDone ++ [c2]) :: specRowFrom as (bsDone ++ [c2]) rest := rfl

theorem levRowAux_spec (c : Char) (as : List Char) :
    ∀ (rest bsDone : List Char),
      levRowAux c (levClassic as bsDone) (levClassic (as ++ [c]) bsDone)
        (specRowFrom as bsDone rest) rest = specRowFrom (as ++ [c]) bsDone rest := by
  intro rest
  induction rest with
  | nil => intro bsDone; simp [levRowAux, specRowFrom]
  | cons c2 rest ih =>
      intro bsDone
      rw [specRowFrom_cons as bsDone c2 rest, specRowFrom_cons (as ++ [c]) bsDone c2 rest,
        levRowAux_cons, ← levClassic_concat_concat c c2 as bsDone, ih (bsDone ++ [c2])]

/-- The full matrix row for the prefix `as` of `str1`. -/
def fullRow (as str2 : List Char) : List Nat :=
  levClassic as [] :: specRowFrom as [] str2

theorem levRow_spec (c : Char) (as str2 : List Char) :
    levRow c (as.length + 1) (fullRow as str2) str2 = fullRow (as ++ [c]) str2 := by
  have hl : levClassic (as ++ [c]) [] = as.length + 1 := by
    rw [levClassic_nil_right]; simp
  simp only [levRow, fullRow, List.headD, List.tail]
  rw [show as.length + 1 = levClassic (as ++ [c]) [] from hl.symm]
  rw [levRowAux_spec c as str2 []]

theorem specRowFrom_nil (rest : List Char) :
    ∀ bsDone : List Char,
      specRowFrom [] bsDone rest = List.range' (bsDone.length + 1) rest.length := by
  induction rest with
  | nil => intro bsDone; simp [specRowFrom]
  | cons c2 rest ih =>
      intro bsDone
      rw [specRowFrom_cons, levClassic_nil_left, List.length_cons,
        List.range'_succ (bsDone.length + 1) rest.length 1, ih (bsDone ++ [c2])]
      simp

theorem fullRow_nil (str2 : List Char) :
    fullRow [] str2 = List.range (str2.length + 1) := by
  simp only [fullRow, levClassic_nil_left, List.length_nil, specRowFrom_nil]
  rw [List.range_eq_range', List.range'_succ 0 str2.length 1]

theorem levRows_spec (str2 : List Char) :
    ∀ (rest as : List Char),
      levRows str2 rest (as.length + 1) (fullRow as str2) = fullRow (as ++ rest) str2 := by
  intro rest
  induction rest with
  | nil => intro as; simp [levRows]
  | cons c rest ih =>
      intro as
      simp only [levRows]
      rw [levRow_spec c as str2]
      have := ih (as ++ [c])
      simpa using this

theorem fullRow_getLastD (as str2 : List Char) :
    (fullRow as str2).getLastD 0 = levClassic as str2 := by
  suffices h : ∀ (rest bsDone : List Char),
      (levClassic as bsDone :: specRowFrom as bsDone rest).getLastD 0 =
        levClassic as (bsDone ++ rest) by
    simpa using h str2 []
  intro rest
  induction rest with
  | nil => intro bsDone; simp [specRowFrom]
  | cons c2 rest ih =>
      intro bsDone
      rw [specRowFrom_cons, List.getLastD_cons, List.getLastD_cons]
      have h2 := ih (bsDone ++ [c2])
      rw [List.getLastD_cons] at h2
      rw [h2]
      simp

theorem levenshtein_default_nil_left (ys : List Char) :
    levenshtein Levenshtein.defaultCost ([] : List Char) ys = ys.length := by
  induction ys with
  | nil => simp [levenshtein_nil_nil]
  | cons y ys ih =>
      rw [levenshtein_nil_cons, ih]
      simp [Levenshtein.defaultCost]
      omega

theorem levenshtein_default_nil_right (xs : List Char) :
    levenshtein Levenshtein.defaultCost xs ([] : List Char) = xs.length := by
  induction xs with
  | nil => simp [levenshtein_nil_nil]
  | cons x xs ih =>
      rw [levenshtein_cons_nil, ih]
      simp [Levenshtein.defaultCost]
      omega

/-- The classic recursion agrees with Mathlib's `levenshtein` at the unit
cost structure. -/
theorem levClassic_eq_levenshtein (xs ys : List Char) :
    levClassic xs ys = levenshtein Levenshtein.defaultCost xs ys := by
  suffices h : ∀ n xs ys, List.length xs + List.length ys ≤ n →
      levClassic xs ys = levenshtein Levenshtein.defaultCost xs ys from
    h (xs.length + ys.length) xs ys le_rfl
  intro n
  induction n with
  | zero =>
      intro xs ys h
      have hx : xs = [] := by cases xs with | nil => rfl | cons a t => simp at h
      have hy : ys = [] := by cases ys with | nil => rfl | cons a t => simp at h
      subst hx; subst hy
      simp [levClassic_nil_left, levenshtein_nil_nil]
  | succ n ih =>
      intro xs ys h
      cases xs with
      | nil => rw [levClassic_nil_left, levenshtein_default_nil_left]
      | cons x xs' =>
          cases ys with
          | nil => rw [levClassic_nil_right, levenshtein_default_nil_right]
          | cons y ys' =>
              rw [levClassic_cons_cons, levenshtein_cons_cons]
              rw [ih xs' (y :: ys') (by simp at h ⊢; omega),
                ih (x :: xs') ys' (by simp at h ⊢; omega),
                ih xs' ys' (by simp at h ⊢; omega)]
              by_cases hxy : x = y <;>
                simp [hxy, Levenshtein.defaultCost] <;> omega

/-- C6: `FuzzyMatcher.levenshteinDistance` computes the classic Levenshtein
edit distance with unit cost for insertion, deletion and substitution
(stated against Mathlib's `levenshtein` at the unit cost structure; by
`levClassic_nil_left`/`levClassic_nil_right` it equals the other string's
length when either string is empty, and by `levClassic_cons_cons` it
satisfies the standard DP recurrence). -/
theorem levenshteinDistance_eq_levClassic (str1 str2 : List Char) :
    levenshteinDistance str1 str2 = levenshtein Levenshtein.defaultCost str1 str2 := by
  rw [← levClassic_eq_levenshtein]
  unfold levenshteinDistance
  rw [← fullRow_nil str2, show (1 : Nat) = List.length ([] : List Char) + 1 from rfl,
    levRows_spec str2 str1 [], List.nil_append, fullRow_getLastD]

end FuzzyMatcher

namespace Filter

/-! ## `SensitiveWordFilter.replaceMatches` (src/filter.ts)

`detect` builds `DetectionMatch` records; `clean`/`detect` hand the
surviving matches to `replaceMatches`, which sorts them by descending
`position` and splices `replacementChar.repeat(length)` over each span. -/

/-- `DetectionMatch` (src/types.ts). -/
structure DetectionMatch where
  word : List Char
  severity : Int
  category : List Char
  position : Nat
  length : Nat
  confidence : Option ℚ := none
  evasionTechniques : Option (List (List Char)) := none
deriving Repr, DecidableEq

/-- JS `String.prototype.repeat`. -/
def jsRepeat (s : List Char) : Nat → List Char
  | 0 => []
  | n + 1 => s ++ jsRepeat s n

/-- One iteration of the `for (const match of sortedMatches)` loop:
`result = result.substring(0, position) + repeat + result.substring(position + length)`. -/
def replaceOne (replacementChar : List Char) (result : List Char) (m : DetectionMatch) :
    List Char :=
  result.take m.position ++ jsRepeat replacementChar m.length ++
    result.drop (m.position + m.length)

/-- `SensitiveWordFilter.replaceMatches(text, matches, replacementChar)`:
sort by descending position (`Array.prototype.sort` with comparator
`b.position - a.position`; a stable sort) and splice each span, walking the
sorted list front to back (end of the string backward). -/
def replaceMatches (text : List Char) (ms : List DetectionMatch)
    (replacementChar : List Char) : List Char :=
  (ms.mergeSort (fun a b => b.position ≤ a.position)).foldl
    (replaceOne replacementChar) text

theorem jsRepeat_single (c : Char) (n : Nat) : jsRepeat [c] n = List.replicate n c := by
  induction n with
  | zero => rfl
  | succ n ih => simp [jsRepeat, ih, List.replicate_succ]

theorem replaceOne_length (c : Char) (text : List Char) (m : DetectionMatch)
    (h : m.position + m.length ≤ text.length) :
    (replaceOne [c] text m).length = text.length := by
  simp [replaceOne, jsRepeat_single]
  omega

theorem replaceOne_getElem_in (c : Char) (text : List Char) (m : DetectionMatch)
    (h : m.position + m.length ≤ text.length) (i : Nat)
    (hi : m.position ≤ i ∧ i < m.position + m.length) :
    (replaceOne [c] text m)[i]? = some c := by
  unfold replaceOne
  rw [jsRepeat_single]
  have hp : (List.take m.position text).length = m.position := by simp; omega
  rw [List.getElem?_append_left (by simp; omega),
    List.getElem?_append_right (by rw [hp]; omega), hp, List.getElem?_replicate,
    if_pos (by omega : i - m.position < m.length)]

theorem replaceOne_getElem_out (c : Char) (text : List Char) (m : DetectionMatch)
    (h : m.position + m.length ≤ text.length) (i : Nat)
    (hi : ¬(m.position ≤ i ∧ i < m.position + m.length)) :
    (replaceOne [c] text m)[i]? = text[i]? := by
  unfold replaceOne
  rw [jsRepeat_single]
  have hp : (List.take m.position text).length = m.position := by simp; omega
  rcases Nat.lt_or_ge i m.position with hlt | hge
  · rw [List.getElem?_append_left (by simp; omega),
      List.getElem?_append_left (by rw [hp]; omega), List.getElem?_take, if_pos hlt]
  · have hge2 : m.position + m.length ≤ i := by omega
    rw [List.getElem?_append_right (by simp; omega), List.getElem?_drop,
      show (List.take m.position text ++ List.replicate m.length c).length =
        m.position + m.length from by simp; omega,
      show m.position + m.length + (i - (m.position + m.length)) = i from by omega]

theorem replFold_spec (c : Char) :
    ∀ (l : List DetectionMatch) (text : List Char),
      (∀ m ∈ l, m.position + m.length ≤ text.length) →
      (l.foldl (replaceOne [c]) text).length = text.length ∧
      ∀ i : Nat,
        ((∃ m ∈ l, m.position ≤ i ∧ i < m.position + m.length) →
          (l.foldl (replaceOne [c]) text)[i]? = some c) ∧
        ((∀ m ∈ l, ¬(m.position ≤ i ∧ i < m.position + m.length)) →
          (l.foldl (replaceOne [c]) text)[i]? = text[i]?) := by
  intro l
  induction l with
  | nil => intro text _; exact ⟨rfl, fun i => ⟨by simp, fun _ => rfl⟩⟩
  | cons m rest ih =>
      intro text hb
      have hm : m.position + m.length ≤ text.length := hb m (List.mem_cons_self m rest)
      have hlen : (replaceOne [c] text m).length = text.length :=
        replaceOne_length c text m hm
      have hb' : ∀ m' ∈ rest, m'.position + m'.length ≤ (replaceOne [c] text m).length := by
        intro m' hm'
        rw [hlen]
        exact hb m' (List.mem_cons_of_mem m hm')
      have IH := ih (replaceOne [c] text m) hb'
      refine ⟨by simp only [List.foldl_cons]; rw [IH.1, hlen], ?_⟩
      intro i
      constructor
      · rintro ⟨m', hm', hcov⟩
        simp only [List.foldl_cons]
        rcases List.mem_cons.mp hm' with rfl | hmem
        · by_cases hrest : ∃ m'' ∈ rest, m''.position ≤ i ∧ i < m''.position + m''.length
          · exact (IH.2 i).1 hrest
          · push_neg at hrest
            rw [(IH.2 i).2 (by intro m'' hmm; have := hrest m'' hmm; omega)]
            exact replaceOne_getElem_in c text m' hm i hcov
        · exact (IH.2 i).1 ⟨m', hmem, hcov⟩
      · intro hnone
        simp only [List.foldl_cons]
        rw [(IH.2 i).2 (fun m'' hmm => hnone m'' (List.mem_cons_of_mem m hmm))]
        exact replaceOne_getElem_out c text m hm i (hnone m (List.mem_cons_self m rest))

/-- C5: `replaceMatches` (as called from `clean`/`detect` with a
one-character replacement string) keeps the text length unchanged,
writes the replacement character at exactly the positions covered by some
match span `[position, position+length)`, and leaves every other character
unchanged in place — provided every span lies within the text. -/
theorem replaceMatches_spec (text : List Char) (ms : List DetectionMatch) (c : Char)
    (hbound : ∀ m ∈ ms, m.position + m.length ≤ text.length) :
    (replaceMatches text ms [c]).length = text.length ∧
    (∀ i : Nat, (∃ m ∈ ms, m.position ≤ i ∧ i < m.position + m.length) →
      (replaceMatches text ms [c])[i]? = some c) ∧
    (∀ i : Nat, (∀ m ∈ ms, ¬(m.position ≤ i ∧ i < m.position + m.length)) →
      (replaceMatches text ms [c])[i]? = text[i]?) := by
  unfold replaceMatches
  have hperm : ∀ m : DetectionMatch,
      m ∈ ms.mergeSort (fun a b => b.position ≤ a.position) ↔ m ∈ ms := by
    intro m; exact List.mem_mergeSort
  have hb : ∀ m ∈ ms.mergeSort (fun a b => b.position ≤ a.position),
      m.position + m.length ≤ text.length := by
    intro m hm; exact hbound m ((hperm m).mp hm)
  have H := replFold_spec c (ms.mergeSort (fun a b => b.position ≤ a.position)) text hb
  refine ⟨H.1, ?_, ?_⟩
  · rintro i ⟨m, hm, hcov⟩
    exact (H.2 i).1 ⟨m, (hperm m).mpr hm, hcov⟩
  · intro i hnone
    exact (H.2 i).2 (fun m hm => hnone m ((hperm m).mp hm))

/-- Witness for C5: cleaning `"X damn Y"` (match `"damn"` at offset 2,
length 4) with replacement character `*` yields `"X **** Y"`. -/
theorem replaceMatches_spec_witness :
    ((replaceMatches "X damn Y".data
        [⟨"damn".data, 2, [], 2, 4, none, none⟩] ['*']).length = "X damn Y".data.length)
    ∧ replaceMatches "X damn Y".data
        [⟨"damn".data, 2, [], 2, 4, none, none⟩] ['*'] = "X **** Y".data :=
  ⟨(replaceMatches_spec "X damn Y".data
      [⟨"damn".data, 2, [], 2, 4, none, none⟩] '*' (by decide)).1, by
    unfold replaceMatches
    rw [List.mergeSort_singleton]
    decide⟩

end Filter

namespace EvasionPatterns

/-! ## src/evasion-patterns.ts

The normalization pipeline `normalizeForEvasion` / `normalizeParanoid` and
its substitution tables.  `split(sep).join(rep)` is `replaceSub`;
a global regex replace of a single character (class) is a character-wise
`bind`; `/\s+/g → \'\'` removal is a filter. -/

/-- JS regex `\s` (whitespace class). -/
def jsWhitespace (c : Char) : Bool :=
  c ∈ [' ', '\t', '\n', '\r', '\u000B', '\u000C', '\u00A0', '\u1680',
    '\u2000', '\u2001', '\u2002', '\u2003', '\u2004', '\u2005', '\u2006',
    '\u2007', '\u2008', '\u2009', '\u200A',
    '\u2028', '\u2029', '\u202F', '\u205F', '\u3000', '\uFEFF']

/-- JS regex `.` fails on line terminators. -/
def isLineTerminator (c : Char) : Bool :=
  c ∈ ['\n', '\r', '\u2028', '\u2029']

/-- Structural worker for `replaceSub`; the fuel starts at the length of
the string and bounds the step count (each step consumes at least one
character, so the `0` case is never reached from `replaceSub`). -/
def replaceSubGo (sep rep : List Char) : Nat → List Char → List Char
  | _, [] => []
  | 0, s => s
  | Nat.succ fuel, c :: rest =>
      if sep ≠ [] ∧ sep.isPrefixOf (c :: rest) = true then
        rep ++ replaceSubGo sep rep fuel (List.drop (sep.length - 1) rest)
      else c :: replaceSubGo sep rep fuel rest

/-- `s.split(sep).join(rep)`: replace every (left-to-right, non-overlapping)
occurrence of `sep` in `s` by `rep`. -/
def replaceSub (sep rep : List Char) (s : List Char) : List Char :=
  replaceSubGo sep rep s.length s

/-- `s.replace(new RegExp(singleChar, \'g\'), rep)`. -/
def replaceChar (src : Char) (tgt : List Char) (s : List Char) : List Char :=
  s.bind (fun c => if c = src then tgt else [c])

/-- Length of the maximal run of `c` at the head, and the remainder. -/
def takeRun (c : Char) : List Char → Nat × List Char
  | [] => (0, [])
  | x :: xs => if x = c then
      let p := takeRun c xs
      (p.1 + 1, p.2)
    else (0, x :: xs)

theorem takeRun_length (c : Char) : ∀ xs : List Char, (takeRun c xs).2.length ≤ xs.length := by
  intro xs
  induction xs with
  | nil => simp [takeRun]
  | cons x xs ih =>
      by_cases hx : x = c <;> simp [takeRun, hx] <;> omega

/-- `/(.)\1{k,}/g → repeat(keep)`: collapse every run of `keep+1` or more
identical non-line-terminator characters down to `keep` copies
(`keep = 2` in `normalizeForEvasion`, `keep = 1` in `normalizeParanoid`). -/
def collapseRunsGo (keep : Nat) : Nat → List Char → List Char
  | _, [] => []
  | 0, s => s
  | Nat.succ fuel, c :: rest =>
      let p := takeRun c rest
      if isLineTerminator c then
        List.replicate (p.1 + 1) c ++ collapseRunsGo keep fuel p.2
      else
        List.replicate (min (p.1 + 1) keep) c ++ collapseRunsGo keep fuel p.2

/-- `collapseRuns` via a fuel-bounded structural worker, as `replaceSub`. -/
def collapseRuns (keep : Nat) (s : List Char) : List Char :=
  collapseRunsGo keep s.length s

/-- `CHARACTER_SUBSTITUTIONS` (src/evasion-patterns.ts), in source key order. -/
def CHARACTER_SUBSTITUTIONS : List (Char × List (List Char)) := [
  ('a', [['@'], ['4'], ['\u03B1'], ['\u0430'], ['\u0101'], ['\u00E1'], ['\u00E0'], ['\u00E2'], ['\u00E4'], ['\u00E3'], ['\u00E5'], ['\uFF41'], ['\uFF21'], ['\u24D0'], [(Char.ofNat 0x1F150)], [(Char.ofNat 0x1F170)]]),
  ('b', [['8'], ['\u00DF'], ['\u0432'], ['\u1E03'], ['6'], ['\uFF42'], ['\uFF22'], ['\u24D1'], [(Char.ofNat 0x1F151)], [(Char.ofNat 0x1F171)]]),
  ('c', [['\u00E7'], ['\u0107'], ['\u010D'], ['\u0109'], ['\uFF43'], ['\uFF23'], ['\u24D2'], [(Char.ofNat 0x1F152)], ['\u00A9']]),
  ('d', [['\u0111'], ['\u010F'], ['\uFF44'], ['\uFF24'], ['\u24D3'], [(Char.ofNat 0x1F153)]]),
  ('e', [['3'], ['\u20AC'], ['\u0435'], ['\u0113'], ['\u00E9'], ['\u00E8'], ['\u00EA'], ['\u00EB'], ['\u0117'], ['\u0119'], ['\uFF45'], ['\uFF25'], ['\u24D4'], [(Char.ofNat 0x1F154)]]),
  ('f', [['\u0192'], ['p', 'h'], ['\uFF46'], ['\uFF26'], ['\u24D5'], [(Char.ofNat 0x1F155)]]),
  ('g', [['9'], ['6'], ['\u011F'], ['\u0123'], ['\u0121'], ['\uFF47'], ['\uFF27'], ['\u24D6'], [(Char.ofNat 0x1F156)]]),
  ('h', [['#'], ['\u0127'], ['\u0125'], ['\uFF48'], ['\uFF28'], ['\u24D7'], [(Char.ofNat 0x1F157)]]),
  ('i', [['1'], ['!'], ['\u00ED'], ['\u00EC'], ['\u00EE'], ['\u00EF'], ['\u012B'], ['\u012F'], ['\u0131'], ['\uFF49'], ['\uFF29'], ['\u24D8'], [(Char.ofNat 0x1F158)], ['|'], ['l']]),
  ('j', [['\u0135'], ['\uFF4A'], ['\uFF2A'], ['\u24D9'], [(Char.ofNat 0x1F159)]]),
  ('k', [['\u0137'], ['\uFF4B'], ['\uFF2B'], ['\u24DA'], [(Char.ofNat 0x1F15A)]]),
  ('l', [['1'], ['\u0142'], ['\u013A'], ['\u013C'], ['\u013E'], ['\uFF4C'], ['\uFF2C'], ['\u24DB'], [(Char.ofNat 0x1F15B)], ['|'], ['I']]),
  ('m', [['\u043C'], ['\uFF4D'], ['\uFF2D'], ['\u24DC'], [(Char.ofNat 0x1F15C)]]),
  ('n', [['\u00F1'], ['\u0144'], ['\u0148'], ['\u0146'], ['\uFF4E'], ['\uFF2E'], ['\u24DD'], [(Char.ofNat 0x1F15D)]]),
  ('o', [['0'], ['\u03BF'], ['\u043E'], ['\u014D'], ['\u00F3'], ['\u00F2'], ['\u00F4'], ['\u00F6'], ['\u00F5'], ['\u00F8'], ['\uFF4F'], ['\uFF2F'], ['\u24DE'], [(Char.ofNat 0x1F15E)], ['\u25CB'], ['\u25EF']]),
  ('p', [['\u0440'], ['\u00FE'], ['\uFF50'], ['\uFF30'], ['\u24DF'], [(Char.ofNat 0x1F15F)]]),
  ('q', [['9'], ['\uFF51'], ['\uFF31'], ['\u24E0'], [(Char.ofNat 0x1F160)]]),
  ('r', [['\u044F'], ['\u0155'], ['\u0159'], ['\u0157'], ['\uFF52'], ['\uFF32'], ['\u24E1'], [(Char.ofNat 0x1F161)], ['\u00AE']]),
  ('s', [['$'], ['5'], ['\u015B'], ['\u0161'], ['\u015F'], ['\u0219'], ['\u015D'], ['\uFF53'], ['\uFF33'], ['\u24E2'], [(Char.ofNat 0x1F162)]]),
  ('t', [['7'], ['\u2020'], ['\u0163'], ['\u0165'], ['\u021B'], ['\uFF54'], ['\uFF34'], ['\u24E3'], [(Char.ofNat 0x1F163)], ['+']]),
  ('u', [['\u03C5'], ['\u016B'], ['\u00FA'], ['\u00F9'], ['\u00FB'], ['\u00FC'], ['\u016F'], ['\u0173'], ['\uFF55'], ['\uFF35'], ['\u24E4'], [(Char.ofNat 0x1F164)], ['\u00B5']]),
  ('v', [['\u03BD'], ['\uFF56'], ['\uFF36'], ['\u24E5'], [(Char.ofNat 0x1F165)]]),
  ('w', [['v', 'v'], ['\u03C9'], ['\u0175'], ['\uFF57'], ['\uFF37'], ['\u24E6'], [(Char.ofNat 0x1F166)]]),
  ('x', [['\u00D7'], ['\uFF58'], ['\uFF38'], ['\u24E7'], [(Char.ofNat 0x1F167)], ['\u2715'], ['\u2716']]),
  ('y', [['\u00FD'], ['\u00FF'], ['\u0177'], ['\uFF59'], ['\uFF39'], ['\u24E8'], [(Char.ofNat 0x1F168)]]),
  ('z', [['2'], ['\u017A'], ['\u017E'], ['\u017C'], ['\uFF5A'], ['\uFF3A'], ['\u24E9'], [(Char.ofNat 0x1F169)]])]

/-- `ARABIC_SUBSTITUTIONS` (src/evasion-patterns.ts), in source key order. -/
def ARABIC_SUBSTITUTIONS : List (Char × List (List Char)) := [
  ('\u0627', [['\u0623'], ['\u0625'], ['\u0622'], ['\u0671'], ['\u0672'], ['\u0673'], ['\u0675'], ['\uFE8D'], ['\uFE8E'], ['1'], ['|'], ['l'], ['I'], ['\uFE83'], ['\uFE84'], ['\uFE87'], ['\uFE88']]),
  ('\u0628', [['\u066E'], ['\u067E'], ['\u0680'], ['\uFE8F'], ['\uFE90'], ['\uFE91'], ['\uFE92']]),
  ('\u062A', [['\u067A'], ['\u067C'], ['\uFE95'], ['\uFE96'], ['\uFE97'], ['\uFE98']]),
  ('\u062B', [['\u067D'], ['\uFE99'], ['\uFE9A'], ['\uFE9B'], ['\uFE9C']]),
  ('\u062C', [['\u0686'], ['\u0683'], ['\u0684'], ['\uFE9D'], ['\uFE9E'], ['\uFE9F'], ['\uFEA0']]),
  ('\u062D', [['\u0681'], ['\u0682'], ['\uFEA1'], ['\uFEA2'], ['\uFEA3'], ['\uFEA4']]),
  ('\u062E', [['\u06A6'], ['\uFEA5'], ['\uFEA6'], ['\uFEA7'], ['\uFEA8']]),
  ('\u062F', [['\u0688'], ['\u0689'], ['\u068A'], ['\uFEA9'], ['\uFEAA']]),
  ('\u0630', [['\u068C'], ['\uFEAB'], ['\uFEAC']]),
  ('\u0631', [['\u0691'], ['\u0693'], ['\u0695'], ['\uFEAD'], ['\uFEAE']]),
  ('\u0632', [['\u0692'], ['\u0698'], ['\uFEAF'], ['\uFEB0']]),
  ('\u0633', [['\u069A'], ['\u069B'], ['\uFEB1'], ['\uFEB2'], ['\uFEB3'], ['\uFEB4']]),
  ('\u0634', [['\u069C'], ['\uFEB5'], ['\uFEB6'], ['\uFEB7'], ['\uFEB8']]),
  ('\u0635', [['\u069D'], ['\uFEB9'], ['\uFEBA'], ['\uFEBB'], ['\uFEBC']]),
  ('\u0636', [['\u069E'], ['\uFEBD'], ['\uFEBE'], ['\uFEBF'], ['\uFEC0']]),
  ('\u0637', [['\uFEC1'], ['\uFEC2'], ['\uFEC3'], ['\uFEC4']]),
  ('\u0638', [['\uFEC5'], ['\uFEC6'], ['\uFEC7'], ['\uFEC8']]),
  ('\u0639', [['\uFEC9'], ['\uFECA'], ['\uFECB'], ['\uFECC'], ['3']]),
  ('\u063A', [['\uFECD'], ['\uFECE'], ['\uFECF'], ['\uFED0']]),
  ('\u0641', [['\u06A1'], ['\u06A2'], ['\u06A3'], ['\uFED1'], ['\uFED2'], ['\uFED3'], ['\uFED4']]),
  ('\u0642', [['\u06A4'], ['\u06A5'], ['\uFED5'], ['\uFED6'], ['\uFED7'], ['\uFED8']]),
  ('\u0643', [['\u06A9'], ['\u06AA'], ['\uFED9'], ['\uFEDA'], ['\uFEDB'], ['\uFEDC'], ['\u06AF']]),
  ('\u0644', [['\u06B5'], ['\uFEDD'], ['\uFEDE'], ['\uFEDF'], ['\uFEE0']]),
  ('\u0645', [['\uFEE1'], ['\uFEE2'], ['\uFEE3'], ['\uFEE4']]),
  ('\u0646', [['\u06BA'], ['\u06BB'], ['\uFEE5'], ['\uFEE6'], ['\uFEE7'], ['\uFEE8']]),
  ('\u0647', [['\u06BE'], ['\u06C1'], ['\u06D5'], ['\uFEE9'], ['\uFEEA'], ['\uFEEB'], ['\uFEEC'], ['\u0629'], ['\u06C3']]),
  ('\u0648', [['\u06C6'], ['\u06C7'], ['\u06C8'], ['\u06C9'], ['\uFEED'], ['\uFEEE'], ['0'], ['o'], ['O']]),
  ('\u064A', [['\u06CC'], ['\u06CD'], ['\u06D0'], ['\u06D2'], ['\uFEF1'], ['\uFEF2'], ['\uFEF3'], ['\uFEF4'], ['\u0649'], ['\u0626']]),
  ('\u0629', [['\u0647'], ['\u06BE'], ['\u06C1'], ['\u06C3'], ['\uFE93'], ['\uFE94']]),
  ('\u0621', [['\u0624'], ['\u0626'], ['\u0623'], ['\u0625']])]

/-- `ARABIC_ENGLISH_LOOKALIKES` (src/evasion-patterns.ts). -/
def ARABIC_ENGLISH_LOOKALIKES : List (Char × List Char) := [
  ('\u0627', ['a']),
  ('\u0628', ['b']),
  ('\u062A', ['t']),
  ('\u062B', ['t', 'h']),
  ('\u062C', ['j']),
  ('\u062D', ['h']),
  ('\u062E', ['k', 'h']),
  ('\u062F', ['d']),
  ('\u0630', ['t', 'h']),
  ('\u0631', ['r']),
  ('\u0632', ['z']),
  ('\u0633', ['s']),
  ('\u0634', ['s', 'h']),
  ('\u0635', ['s']),
  ('\u0636', ['d']),
  ('\u0637', ['t']),
  ('\u0638', ['z']),
  ('\u0639', ['a']),
  ('\u063A', ['g', 'h']),
  ('\u0641', ['f']),
  ('\u0642', ['q']),
  ('\u0643', ['k']),
  ('\u0644', ['l']),
  ('\u0645', ['m']),
  ('\u0646', ['n']),
  ('\u0647', ['h']),
  ('\u0648', ['w']),
  ('\u064A', ['y'])]

/-- `INVISIBLE_CHARACTERS` (src/evasion-patterns.ts). -/
def INVISIBLE_CHARACTERS : List Char := [
  '\u200B', '\u200C', '\u200D', '\u200E', '\u200F', '\u2060', '\u2061', '\u2062', '\u2063', '\u2064', '\uFEFF', '\u00AD', '\u034F', '\u061C', '\u115F', '\u1160', '\u17B4', '\u17B5', '\u180E', '\u3164', '\uFFA0']

/-- `SYMBOL_PATTERNS` (src/evasion-patterns.ts): single-character regex
classes and their replacements (empty replacement deletes). -/
def SYMBOL_PATTERNS : List (List Char × List Char) := [
  (['*', '_', '-', '~'], []),
  (['@'], ['a']), (['$'], ['s']), (['!'], ['i']),
  (['0'], ['o']), (['1'], ['i']), (['3'], ['e']), (['4'], ['a']),
  (['5'], ['s']), (['7'], ['t']), (['8'], ['b']), (['9'], ['g'])]

/-- `ARABIC_TATWEEL` (kashida). -/
def ARABIC_TATWEEL : Char := '\u0640'

/-- Arabic diacritics (tashkeel) class `[\u064B-\u065F\u0670]`. -/
def isTashkeel (c : Char) : Bool :=
  (0x064B ≤ c.toNat ∧ c.toNat ≤ 0x065F) ∨ c.toNat = 0x0670

/-- `/[a-z]/i.test` — the `hasEnglish` check inside `normalizeForEvasion`. -/
def hasAsciiLetter (s : List Char) : Bool :=
  s.any (fun c => ('a' ≤ c ∧ c ≤ 'z') ∨ ('A' ≤ c ∧ c ≤ 'Z'))

/-- Stage: remove each invisible character (`split(char).join('')`). -/
def stripInvisible (s : List Char) : List Char :=
  INVISIBLE_CHARACTERS.foldl (fun s ch => replaceSub [ch] [] s) s

/-- Stage: remove the Arabic tatweel. -/
def stripTatweel (s : List Char) : List Char :=
  replaceChar ARABIC_TATWEEL [] s

/-- Stage: fold Arabic character variations onto their canonical letters and
then remove the tashkeel diacritics. -/
def applyArabicNormalization (s : List Char) : List Char :=
  (ARABIC_SUBSTITUTIONS.foldl
    (fun s p => p.2.foldl (fun s sub => replaceSub sub [p.1] s) s) s).filter
    (fun c => ¬ isTashkeel c)

/-- Stage: Arabic→Latin lookalike (phonetic) folding; the source guards it
with `handleLanguageMixing && hasEnglish`, where `hasEnglish` tests the
string as it stands at this point of the pipeline. -/
def applyLanguageMixing (enabled : Bool) (s : List Char) : List Char :=
  if enabled ∧ hasAsciiLetter s then
    ARABIC_ENGLISH_LOOKALIKES.foldl (fun s p => replaceChar p.1 p.2 s) s
  else s

/-- Stage: leet-speak / confusable character substitutions
(`split(substitute.toLowerCase()).join(original)` per table entry). -/
def applyCharacterSubstitutions (s : List Char) : List Char :=
  CHARACTER_SUBSTITUTIONS.foldl
    (fun s p => p.2.foldl (fun s sub => replaceSub (lowerStr sub) [p.1] s) s) s

/-- Stage: the `SYMBOL_PATTERNS` passes. -/
def applySymbolPatterns (s : List Char) : List Char :=
  SYMBOL_PATTERNS.foldl (fun s p => s.bind (fun c => if c ∈ p.1 then p.2 else [c])) s

/-- Stage: the `SPACE_PATTERNS` passes (`/\s+/g → ''` then `[._\-|] → ''`). -/
def stripSpaceSeparators (s : List Char) : List Char :=
  (s.filter (fun c => ¬ jsWhitespace c)).filter (fun c => c ∉ ['.', '_', '-', '|'])

/-- Options of `normalizeForEvasion`, all defaulting to `true`. -/
structure EvasionOptions where
  removeSymbols : Bool := true
  removeSpaces : Bool := true
  normalizeRepeated : Bool := true
  substituteCharacters : Bool := true
  handleLanguageMixing : Bool := true
  removeInvisible : Bool := true
  removeTatweel : Bool := true
  normalizeArabic : Bool := true
deriving Repr, DecidableEq

/-- `normalizeForEvasion(text, options)` (src/evasion-patterns.ts):
lowercase, then apply the toggled stages in source order. -/
def normalizeForEvasion (text : List Char) (opts : EvasionOptions := {}) : List Char :=
  let n0 := lowerStr text
  let n1 := if opts.removeInvisible then stripInvisible n0 else n0
  let n2 := if opts.removeTatweel then stripTatweel n1 else n1
  let n3 := if opts.normalizeArabic then applyArabicNormalization n2 else n2
  let n4 := applyLanguageMixing opts.handleLanguageMixing n3
  let n5 := if opts.substituteCharacters then applyCharacterSubstitutions n4 else n4
  let n6 := if opts.removeSymbols then applySymbolPatterns n5 else n5
  let n7 := if opts.removeSpaces then stripSpaceSeparators n6 else n6
  let n8 := if opts.normalizeRepeated then collapseRuns 2 n7 else n7
  n8

/-- `\p{L}` / `\p{N}` (letter or digit), on the fragment of code points this
library manipulates: ASCII alphanumerics, the Arabic blocks and Arabic
presentation forms. -/
def isLetterOrDigitJS (c : Char) : Bool :=
  c.isAlphanum ∨
  (0x0620 ≤ c.toNat ∧ c.toNat ≤ 0x064A) ∨
  (0x0660 ≤ c.toNat ∧ c.toNat ≤ 0x0669) ∨
  (0x066E ≤ c.toNat ∧ c.toNat ≤ 0x06D3) ∨ c.toNat = 0x06D5 ∨
  (0x06EE ≤ c.toNat ∧ c.toNat ≤ 0x06FF) ∨
  (0x0750 ≤ c.toNat ∧ c.toNat ≤ 0x077F) ∨
  (0x08A0 ≤ c.toNat ∧ c.toNat ≤ 0x08FF) ∨
  (0xFB50 ≤ c.toNat ∧ c.toNat ≤ 0xFDFF) ∨
  (0xFE70 ≤ c.toNat ∧ c.toNat ≤ 0xFEFC)

/-- `normalizeParanoid(text)` (src/evasion-patterns.ts): run
`normalizeForEvasion` with every stage on, strip every character that is
not a letter or digit, and collapse all repeated-character runs to one. -/
def normalizeParanoid (text : List Char) : List Char :=
  let n := normalizeForEvasion text {}
  let n := n.filter isLetterOrDigitJS
  collapseRuns 1 n

end EvasionPatterns

namespace Normalizer

/-! ## src/normalizer.ts

`normalizeText` and its helpers.  `String.prototype.normalize('NFC')` is
modelled as the identity map: on the fragment the library manipulates
(ASCII and precomposed Arabic letters) NFC is the identity. -/

/-- `text.normalize('NFC')`, modelled as the identity (see section comment). -/
def nfc (s : List Char) : List Char := s

/-- `normalizeArabic` (src/normalizer.ts): strip tashkeel, fold Alef
variations, Teh Marbuta and Yeh variations. -/
def normalizeArabic (s : List Char) : List Char :=
  let s1 := s.filter (fun c => ¬ EvasionPatterns.isTashkeel c)
  let s2 := s1.map (fun c => if c = 'آ' ∨ c = 'أ' ∨ c = 'إ' then 'ا' else c)
  let s3 := s2.map (fun c => if c = 'ة' then 'ه' else c)
  s3.map (fun c => if c = 'ى' ∨ c = 'ي' then 'ي' else c)

/-- `normalizeEnglish` (src/normalizer.ts): the leet-speak table is
commented out in the source, so this is the identity. -/
def normalizeEnglish (s : List Char) : List Char := s

/-- Worker for `replace(/\s+/g, ' ')`: the flag records whether the
previous character was whitespace (so the run is already represented). -/
def squashWsGo : Bool → List Char → List Char
  | _, [] => []
  | prevWs, c :: rest =>
      if EvasionPatterns.jsWhitespace c then
        (if prevWs then [] else [' ']) ++ squashWsGo true rest
      else c :: squashWsGo false rest

/-- `replace(/\s+/g, ' ')`: collapse every whitespace run to one space. -/
def squashWs (s : List Char) : List Char := squashWsGo false s

/-- `String.prototype.trim()`: drop leading and trailing whitespace. -/
def trimWs (s : List Char) : List Char :=
  ((s.dropWhile (fun c => EvasionPatterns.jsWhitespace c)).reverse.dropWhile
    (fun c => EvasionPatterns.jsWhitespace c)).reverse

/-- Options of `normalizeText`, all defaulting to `true`. -/
structure NormalizeOptions where
  arabic : Bool := true
  english : Bool := true
  lowercase : Bool := true
deriving Repr, DecidableEq

/-- `normalizeText(text, options)` (src/normalizer.ts). -/
def normalizeText (text : List Char) (opts : NormalizeOptions := {}) : List Char :=
  let n0 := nfc text
  let n1 := if opts.arabic then normalizeArabic n0 else n0
  let n2 := if opts.english then normalizeEnglish n1 else n1
  let n3 := if opts.lowercase then lowerStr n2 else n2
  trimWs (squashWs n3)

end Normalizer

namespace Normalizer

/-! ### Idempotence of `normalizeText` -/

theorem char_eq_iff_toNat (c d : Char) : c = d ↔ c.toNat = d.toNat :=
  ⟨fun h => h ▸ rfl, char_eq_of_toNat⟩

/-- Characters that every stage of `normalizeArabic` leaves alone. -/
def goodArab (c : Char) : Prop :=
  ¬(0x64B ≤ c.toNat ∧ c.toNat ≤ 0x65F) ∧ c.toNat ≠ 0x670 ∧
  c.toNat ≠ 0x622 ∧ c.toNat ≠ 0x623 ∧ c.toNat ≠ 0x625 ∧
  c.toNat ≠ 0x629 ∧ c.toNat ≠ 0x649

instance : DecidablePred goodArab := fun c => by
  unfold goodArab
  infer_instance

theorem goodArab_space : goodArab ' ' := by decide

theorem arab_char_good (b0 : Char) (htash : ¬ EvasionPatterns.isTashkeel b0 = true) :
    goodArab (if (if (if b0 = 'آ' ∨ b0 = 'أ' ∨ b0 = 'إ' then 'ا' else b0) = 'ة' then 'ه'
        else if b0 = 'آ' ∨ b0 = 'أ' ∨ b0 = 'إ' then 'ا' else b0) = 'ى' ∨
          (if (if b0 = 'آ' ∨ b0 = 'أ' ∨ b0 = 'إ' then 'ا' else b0) = 'ة' then 'ه'
            else if b0 = 'آ' ∨ b0 = 'أ' ∨ b0 = 'إ' then 'ا' else b0) = 'ي' then 'ي'
      else if (if b0 = 'آ' ∨ b0 = 'أ' ∨ b0 = 'إ' then 'ا' else b0) = 'ة' then 'ه'
        else if b0 = 'آ' ∨ b0 = 'أ' ∨ b0 = 'إ' then 'ا' else b0) := by
  by_cases h1 : b0 = 'آ' ∨ b0 = 'أ' ∨ b0 = 'إ'
  · rw [if_pos h1]
    decide
  · rw [if_neg h1]
    by_cases h2 : b0 = 'ة'
    · rw [if_pos h2]
      decide
    · rw [if_neg h2]
      by_cases h3 : b0 = 'ى' ∨ b0 = 'ي'
      · rw [if_pos h3]
        decide
      · rw [if_neg h3]
        push_neg at h1 h3
        unfold EvasionPatterns.isTashkeel at htash
        simp only [decide_eq_true_eq] at htash
        push_neg at htash
        have e1 : b0.toNat ≠ 'آ'.toNat := (char_eq_iff_toNat b0 'آ').not.mp h1.1
        have e2 : b0.toNat ≠ 'أ'.toNat := (char_eq_iff_toNat b0 'أ').not.mp h1.2.1
        have e3 : b0.toNat ≠ 'إ'.toNat := (char_eq_iff_toNat b0 'إ').not.mp h1.2.2
        have e4 : b0.toNat ≠ 'ة'.toNat := (char_eq_iff_toNat b0 'ة').not.mp h2
        have e5 : b0.toNat ≠ 'ى'.toNat := (char_eq_iff_toNat b0 'ى').not.mp h3.1
        rw [show 'آ'.toNat = 0x622 from by decide] at e1
        rw [show 'أ'.toNat = 0x623 from by decide] at e2
        rw [show 'إ'.toNat = 0x625 from by decide] at e3
        rw [show 'ة'.toNat = 0x629 from by decide] at e4
        rw [show 'ى'.toNat = 0x649 from by decide] at e5
        exact ⟨fun hcon => absurd hcon.2 (by omega), htash.2, e1, e2, e3, e4, e5⟩

theorem normalizeArabic_mem (s : List Char) : ∀ c ∈ normalizeArabic s, goodArab c := by
  intro c hc
  unfold normalizeArabic at hc
  simp only [List.mem_map, List.mem_filter] at hc
  obtain ⟨b2, ⟨b1, ⟨b0, hb0, rfl⟩, rfl⟩, rfl⟩ := hc
  have htash : ¬ EvasionPatterns.isTashkeel b0 = true := by
    have := hb0.2
    simpa using this
  exact arab_char_good b0 htash

theorem arab_if1_fixed (a : Char) (hg : goodArab a) :
    (if a = 'آ' ∨ a = 'أ' ∨ a = 'إ' then 'ا' else a) = a := by
  rw [if_neg]
  rintro (rfl | rfl | rfl) <;> exact absurd hg (by decide)

theorem arab_if2_fixed (a : Char) (hg : goodArab a) :
    (if a = 'ة' then 'ه' else a) = a := by
  rw [if_neg]
  rintro rfl
  exact absurd hg (by decide)

theorem arab_if3_fixed (a : Char) (hg : goodArab a) :
    (if a = 'ى' ∨ a = 'ي' then 'ي' else a) = a := by
  by_cases h : a = 'ي'
  · rw [if_pos (Or.inr h), h]
  · rw [if_neg]
    rintro (rfl | rfl)
    · exact absurd hg (by decide)
    · exact h rfl

theorem normalizeArabic_fixed (s : List Char) (h : ∀ c ∈ s, goodArab c) :
    normalizeArabic s = s := by
  unfold normalizeArabic
  dsimp only
  have hfil : (s.filter fun c => ¬ EvasionPatterns.isTashkeel c) = s := by
    rw [List.filter_eq_self]
    intro a ha
    have hg := h a ha
    unfold goodArab at hg
    simp [EvasionPatterns.isTashkeel]
    omega
  rw [hfil]
  have h1 : (s.map fun c => if c = 'آ' ∨ c = 'أ' ∨ c = 'إ' then 'ا' else c) = s := by
    rw [List.map_congr_left (g := id) (fun a ha => arab_if1_fixed a (h a ha)), List.map_id]
  rw [h1]
  have h2 : (s.map fun c => if c = 'ة' then 'ه' else c) = s := by
    rw [List.map_congr_left (g := id) (fun a ha => arab_if2_fixed a (h a ha)), List.map_id]
  rw [h2]
  rw [List.map_congr_left (g := id) (fun a ha => arab_if3_fixed a (h a ha)), List.map_id]

theorem goodArab_jsToLower (c : Char) (h : goodArab c) : goodArab (jsToLower c) := by
  by_cases hc : (0x41 ≤ c.toNat ∧ c.toNat ≤ 0x5A) ∨ (0xFF21 ≤ c.toNat ∧ c.toNat ≤ 0xFF3A)
  · have ht := jsToLower_toNat c hc
    unfold goodArab
    rw [ht]
    refine ⟨?_, ?_, ?_, ?_, ?_, ?_, ?_⟩ <;> rcases hc with hc | hc <;> omega
  · rw [jsToLower_toNat_out c hc]
    exact h

theorem jsToLower_mem_fixed (s : List Char) : ∀ c ∈ lowerStr s, jsToLower c = c := by
  intro c hc
  unfold lowerStr at hc
  obtain ⟨a, _, rfl⟩ := List.mem_map.mp hc
  exact jsToLower_idem a

theorem lowerStr_fixed (s : List Char) (h : ∀ c ∈ s, jsToLower c = c) : lowerStr s = s := by
  unfold lowerStr
  rw [List.map_congr_left (g := id) h, List.map_id]

/-- Adjacent characters are never both whitespace. -/
def wsSep (a b : Char) : Prop :=
  ¬(EvasionPatterns.jsWhitespace a = true ∧ EvasionPatterns.jsWhitespace b = true)

theorem mem_squashWsGo :
    ∀ (s : List Char) (flag : Bool), ∀ c ∈ squashWsGo flag s, c = ' ' ∨ c ∈ s := by
  intro s
  induction s with
  | nil => intro flag c hc; simp [squashWsGo] at hc
  | cons a rest ih =>
      intro flag c hc
      unfold squashWsGo at hc
      by_cases hws : EvasionPatterns.jsWhitespace a = true
      · rw [if_pos hws] at hc
        rcases List.mem_append.mp hc with h1 | h2
        · cases flag with
          | true => simp at h1
          | false =>
              left
              simpa using h1
        · rcases ih true c h2 with h | h
          · exact Or.inl h
          · exact Or.inr (List.mem_cons_of_mem a h)
      · rw [if_neg hws] at hc
        rcases List.mem_cons.mp hc with rfl | h
        · exact Or.inr (List.mem_cons_self _ _)
        · rcases ih false c h with h' | h'
          · exact Or.inl h'
          · exact Or.inr (List.mem_cons_of_mem a h')

theorem squash_allWsSpace :
    ∀ (s : List Char) (flag : Bool), ∀ c ∈ squashWsGo flag s,
      EvasionPatterns.jsWhitespace c = true → c = ' ' := by
  intro s
  induction s with
  | nil => intro flag c hc; simp [squashWsGo] at hc
  | cons a rest ih =>
      intro flag c hc hwc
      unfold squashWsGo at hc
      by_cases hws : EvasionPatterns.jsWhitespace a = true
      · rw [if_pos hws] at hc
        rcases List.mem_append.mp hc with h1 | h2
        · cases flag with
          | true => simp at h1
          | false => simpa using h1
        · exact ih true c h2 hwc
      · rw [if_neg hws] at hc
        rcases List.mem_cons.mp hc with rfl | h
        · exact absurd hwc (by simpa using hws)
        · exact ih false c h hwc

theorem squash_head_true :
    ∀ (s : List Char), ∀ c ∈ (squashWsGo true s).head?,
      EvasionPatterns.jsWhitespace c = false := by
  intro s
  induction s with
  | nil => intro c hc; simp [squashWsGo] at hc
  | cons a rest ih =>
      intro c hc
      unfold squashWsGo at hc
      by_cases hws : EvasionPatterns.jsWhitespace a = true
      · rw [if_pos hws] at hc
        simpa using ih c (by simpa using hc)
      · rw [if_neg hws] at hc
        simp at hc
        cases hc
        simpa using hws

theorem squash_chain :
    ∀ (s : List Char) (flag : Bool), List.Chain' wsSep (squashWsGo flag s) := by
  intro s
  induction s with
  | nil => intro flag; simp [squashWsGo]
  | cons a rest ih =>
      intro flag
      unfold squashWsGo
      by_cases hws : EvasionPatterns.jsWhitespace a = true
      · rw [if_pos hws]
        cases flag with
        | true => simpa using ih true
        | false =>
            show List.Chain' wsSep ([' '] ++ squashWsGo true rest)
            simp only [List.singleton_append]
            rw [List.chain'_cons']
            refine ⟨?_, ih true⟩
            intro y hy
            have := squash_head_true rest y hy
            intro hcon
            rw [this] at hcon
            exact absurd hcon.2 (by simp)
      · rw [if_neg hws]
        rw [List.chain'_cons']
        refine ⟨?_, ih false⟩
        intro y _
        intro hcon
        exact hws hcon.1

theorem squash_fixed :
    ∀ (s : List Char),
      (∀ c ∈ s, EvasionPatterns.jsWhitespace c = true → c = ' ') →
      List.Chain' wsSep s →
      ∀ flag : Bool,
        (flag = true → ∀ c ∈ s.head?, EvasionPatterns.jsWhitespace c = false) →
        squashWsGo flag s = s := by
  intro s
  induction s with
  | nil => intro _ _ flag _; cases flag <;> rfl
  | cons a rest ih =>
      intro hall hchain flag hhead
      have hpair := (List.chain'_cons'.mp hchain).1
      have htail := (List.chain'_cons'.mp hchain).2
      unfold squashWsGo
      by_cases hws : EvasionPatterns.jsWhitespace a = true
      · cases flag with
        | true =>
            exact absurd hws (by simpa using hhead rfl a rfl)
        | false =>
            rw [if_pos hws]
            have ha : a = ' ' := hall a (List.mem_cons_self _ _) hws
            have hrest : squashWsGo true rest = rest := by
              apply ih (fun c hc hwc => hall c (List.mem_cons_of_mem a hc) hwc) htail
              intro _ c hc
              have := hpair c hc
              unfold wsSep at this
              by_cases h2 : EvasionPatterns.jsWhitespace c = true
              · exact absurd ⟨hws, h2⟩ this
              · simpa using h2
            rw [hrest, ha]
            rfl
      · rw [if_neg hws]
        have hrest : squashWsGo false rest = rest := by
          apply ih (fun c hc hwc => hall c (List.mem_cons_of_mem a hc) hwc) htail
          intro hcon
          exact absurd hcon (by simp)
        rw [hrest]

theorem mem_trimWs (s : List Char) : ∀ c ∈ trimWs s, c ∈ s := by
  intro c hc
  unfold trimWs at hc
  rw [List.mem_reverse] at hc
  have h1 := (List.dropWhile_suffix _).sublist.subset hc
  rw [List.mem_reverse] at h1
  exact (List.dropWhile_suffix _).sublist.subset h1

theorem dropWhile_head_not (p : Char → Bool) (l : List Char) :
    ∀ c ∈ (List.dropWhile p l).head?, p c = false := by
  intro c hc
  have h := List.head?_dropWhile_not p l
  cases hd : (List.dropWhile p l).head? with
  | none => rw [hd] at hc; simp at hc
  | some x =>
      rw [hd] at hc h
      simp at hc
      rw [hc] at h
      exact h

theorem dropWhile_eq_self_of_head (p : Char → Bool) (l : List Char)
    (h : ∀ c ∈ l.head?, p c = false) : List.dropWhile p l = l := by
  cases l with
  | nil => rfl
  | cons x xs =>
      have hx := h x rfl
      rw [List.dropWhile_cons, hx]
      simp

theorem trimWs_head (s : List Char) :
    ∀ c ∈ (trimWs s).head?, EvasionPatterns.jsWhitespace c = false := by
  intro c hc
  unfold trimWs at hc
  rw [List.head?_reverse] at hc
  obtain ⟨t, ht⟩ :=
    List.dropWhile_suffix (l := (List.dropWhile (fun c => EvasionPatterns.jsWhitespace c)
      s).reverse) (fun c => EvasionPatterns.jsWhitespace c)
  have hlast : ((List.dropWhile (fun c => EvasionPatterns.jsWhitespace c) s).reverse).getLast? =
      some c := by
    rw [← ht, List.getLast?_append, hc]
    rfl
  rw [List.getLast?_reverse] at hlast
  exact dropWhile_head_not _ s c hlast

theorem trimWs_getLast (s : List Char) :
    ∀ c ∈ (trimWs s).getLast?, EvasionPatterns.jsWhitespace c = false := by
  intro c hc
  unfold trimWs at hc
  rw [List.getLast?_reverse] at hc
  exact dropWhile_head_not _ _ c hc

theorem trimWs_eq_self (s : List Char)
    (h1 : ∀ c ∈ s.head?, EvasionPatterns.jsWhitespace c = false)
    (h2 : ∀ c ∈ s.getLast?, EvasionPatterns.jsWhitespace c = false) : trimWs s = s := by
  unfold trimWs
  rw [dropWhile_eq_self_of_head _ _ h1]
  rw [dropWhile_eq_self_of_head _ _ (by rw [List.head?_reverse]; exact h2)]
  rw [List.reverse_reverse]

theorem chain_wsSep_flip (l : List Char) (h : List.Chain' (flip wsSep) l) :
    List.Chain' wsSep l := by
  apply List.Chain'.imp _ h
  intro a b hab
  unfold flip wsSep at hab
  unfold wsSep
  intro hcon
  exact hab ⟨hcon.2, hcon.1⟩

theorem trimWs_chain (s : List Char) (h : List.Chain' wsSep s) :
    List.Chain' wsSep (trimWs s) := by
  unfold trimWs
  apply chain_wsSep_flip
  rw [← List.chain'_reverse, List.reverse_reverse]
  apply List.Chain'.infix _ (List.dropWhile_suffix _).isInfix
  apply chain_wsSep_flip
  rw [← List.chain'_reverse, List.reverse_reverse]
  exact List.Chain'.infix h (List.dropWhile_suffix _).isInfix

theorem normalizeText_default (x : List Char) :
    normalizeText x {} = trimWs (squashWs (lowerStr (normalizeArabic x))) := rfl

/-- C7 (amended): `normalizeText` is idempotent under its default options:
`normalizeText(normalizeText(x)) == normalizeText(x)` for every input. -/
theorem normalizeText_idempotent (x : List Char) :
    normalizeText (normalizeText x {}) {} = normalizeText x {} := by
  rw [normalizeText_default x, normalizeText_default]
  have hmem : ∀ c ∈ trimWs (squashWs (lowerStr (normalizeArabic x))),
      c = ' ' ∨ c ∈ lowerStr (normalizeArabic x) := by
    intro c hc
    exact mem_squashWsGo _ false c (mem_trimWs _ c hc)
  have hgood : ∀ c ∈ trimWs (squashWs (lowerStr (normalizeArabic x))), goodArab c := by
    intro c hc
    rcases hmem c hc with rfl | h
    · exact goodArab_space
    · obtain ⟨a, ha, rfl⟩ := List.mem_map.mp h
      exact goodArab_jsToLower a (normalizeArabic_mem x a ha)
  have hlow : ∀ c ∈ trimWs (squashWs (lowerStr (normalizeArabic x))), jsToLower c = c := by
    intro c hc
    rcases hmem c hc with rfl | h
    · decide
    · exact jsToLower_mem_fixed _ c h
  rw [normalizeArabic_fixed _ hgood, lowerStr_fixed _ hlow]
  have hall : ∀ c ∈ trimWs (squashWs (lowerStr (normalizeArabic x))),
      EvasionPatterns.jsWhitespace c = true → c = ' ' := by
    intro c hc hw
    exact squash_allWsSpace _ false c (mem_trimWs _ c hc) hw
  have hchain : List.Chain' wsSep (trimWs (squashWs (lowerStr (normalizeArabic x)))) :=
    trimWs_chain _ (squash_chain _ false)
  have hsq : squashWs (trimWs (squashWs (lowerStr (normalizeArabic x)))) =
      trimWs (squashWs (lowerStr (normalizeArabic x))) := by
    unfold squashWs
    exact squash_fixed _ hall hchain false (by simp)
  rw [hsq]
  exact trimWs_eq_self _ (trimWs_head _) (trimWs_getLast _)

end Normalizer

namespace EvasionPatterns

set_option maxRecDepth 100000 in
/-- C7 counterexample: `normalizeForEvasion` (default options) is not
idempotent: `normalizeForEvasion("p h") = "ph"` (the space is removed after
the `'ph' → 'f'` substitution pass has already run), but
`normalizeForEvasion("ph") = "f"`. -/
theorem normalizeForEvasion_not_idempotent :
    ¬ (normalizeForEvasion (normalizeForEvasion "p h".data {}) {} =
      normalizeForEvasion "p h".data {}) := by
  have e1 : normalizeForEvasion "p h".data {} = "ph".data := by
    have a0 : lowerStr "p h".data = "p h".data := by decide
    have a1 : stripInvisible "p h".data = "p h".data := by decide
    have a2 : stripTatweel "p h".data = "p h".data := by decide
    have a3 : applyArabicNormalization "p h".data = "p h".data := by decide
    have a4 : applyLanguageMixing true "p h".data = "p h".data := by decide
    have a5 : applyCharacterSubstitutions "p h".data = "p h".data := by decide
    have a6 : applySymbolPatterns "p h".data = "p h".data := by decide
    have a7 : stripSpaceSeparators "p h".data = "ph".data := by decide
    have a8 : collapseRuns 2 "ph".data = "ph".data := by decide
    show collapseRuns 2 (stripSpaceSeparators (applySymbolPatterns (applyCharacterSubstitutions (applyLanguageMixing true (applyArabicNormalization (stripTatweel (stripInvisible (lowerStr "p h".data)))))))) = "ph".data
    rw [a0, a1, a2, a3, a4, a5, a6, a7, a8]
  have e2 : normalizeForEvasion "ph".data {} = "f".data := by
    have b0 : lowerStr "ph".data = "ph".data := by decide
    have b1 : stripInvisible "ph".data = "ph".data := by decide
    have b2 : stripTatweel "ph".data = "ph".data := by decide
    have b3 : applyArabicNormalization "ph".data = "ph".data := by decide
    have b4 : applyLanguageMixing true "ph".data = "ph".data := by decide
    have b5 : applyCharacterSubstitutions "ph".data = "f".data := by decide
    have b6 : applySymbolPatterns "f".data = "f".data := by decide
    have b7 : stripSpaceSeparators "f".data = "f".data := by decide
    have b8 : collapseRuns 2 "f".data = "f".data := by decide
    show collapseRuns 2 (stripSpaceSeparators (applySymbolPatterns (applyCharacterSubstitutions (applyLanguageMixing true (applyArabicNormalization (stripTatweel (stripInvisible (lowerStr "ph".data)))))))) = "f".data
    rw [b0, b1, b2, b3, b4, b5, b6, b7, b8]
  rw [e1, e2]
  decide

end EvasionPatterns

/-- JS `String.prototype.includes`: `needle` occurs as a contiguous
substring of the haystack. -/
def containsSub (needle : List Char) : List Char → Bool
  | [] => needle.isPrefixOf []
  | c :: t => needle.isPrefixOf (c :: t) || containsSub needle t

namespace FuzzyMatcher

/-! ## `FuzzyMatcher.fuzzyMatch` (src/fuzzy-matcher.ts)

Confidence values (JS floats) are modelled as rationals: every value the
source computes is of the form `1 - d / maxLen` with small integers, and
all comparisons performed on them are exact in that range. -/

/-- `FuzzyMatchOptions` (src/fuzzy-matcher.ts). -/
structure FuzzyMatchOptions where
  strictness : Nat
  maxEditDistance : Nat
  detectSymbolReplacement : Bool := true
  detectSpaceInsertion : Bool := true
  detectRepeatedLetters : Bool := true
  detectLanguageMixing : Bool := true
deriving Repr, DecidableEq

/-- `FuzzyMatchResult` (src/fuzzy-matcher.ts). -/
structure FuzzyMatchResult where
  matched : Bool
  confidence : ℚ
  normalizedText : List Char
  evasionTechniques : List (List Char)
deriving Repr, DecidableEq

/-- `/\s{2,}/.test s`: two consecutive whitespace characters. -/
def hasDoubleWs (s : List Char) : Bool :=
  (s.zip s.tail).any (fun p =>
    EvasionPatterns.jsWhitespace p.1 ∧ EvasionPatterns.jsWhitespace p.2)

/-- `/(.)\1{3,}/.test s`: four consecutive copies of one (non-line-terminator)
character. -/
def hasRun4 (s : List Char) : Bool :=
  s.tails.any (fun t =>
    match t with
    | a :: b :: c :: d :: _ =>
        ¬ EvasionPatterns.isLineTerminator a ∧ a = b ∧ b = c ∧ c = d
    | _ => false)

/-- `detectEvasionTechnique(original, _normalized)` (src/evasion-patterns.ts). -/
def detectEvasionTechnique (original : List Char) : List (List Char) :=
  (if original.any (fun c => c ∈ ['@', '$', '!', '*', '#']) then
      ["symbol_replacement".data] else []) ++
  (if hasDoubleWs original ∨ original.any (fun c => c ∈ ['.', '_', '-', '|']) then
      ["space_insertion".data] else []) ++
  (if hasRun4 original then ["repeated_letters".data] else []) ++
  (if original.any (fun c => '0' ≤ c ∧ c ≤ '9') then ["leet_speak".data] else []) ++
  (if (original.any (fun c => 0x0600 ≤ c.toNat ∧ c.toNat ≤ 0x06FF)) ∧
      (original.any (fun c => ('a' ≤ c ∧ c ≤ 'z') ∨ ('A' ≤ c ∧ c ≤ 'Z'))) then
      ["language_mixing".data] else []) ++
  (if (EvasionPatterns.CHARACTER_SUBSTITUTIONS.bind (fun p => p.2)).any
      (fun sub => containsSub (lowerStr sub) (lowerStr original)) then
      ["character_substitution".data] else [])

/-- `Math.ceil(n * 0.4)` for a string length `n`: with binary64 arithmetic
this equals `⌈2n/5⌉` for all lengths in range (the rounding error of
`n * 0.4` is far below the distance to the nearest integer). -/
def jsCeilFourTenths (n : Nat) : Nat := (2 * n + 4) / 5

/-- `FuzzyMatcher.fuzzyMatch(text, word)` (src/fuzzy-matcher.ts). -/
def fuzzyMatch (opts : FuzzyMatchOptions) (text word : List Char) : FuzzyMatchResult :=
  let originalText := text
  let normalizedWord := lowerStr word
  if opts.strictness = 1 then
    let matched := lowerStr text = normalizedWord
    ⟨matched, if matched then 1 else 0, lowerStr text, []⟩
  else if opts.strictness = 4 then
    let paranoidText := EvasionPatterns.normalizeParanoid text
    let paranoidWord := EvasionPatterns.normalizeParanoid word
    if paranoidText = paranoidWord then
      ⟨true, 99/100, paranoidText, detectEvasionTechnique originalText⟩
    else if containsSub paranoidWord paranoidText then
      ⟨true, 95/100, paranoidText, detectEvasionTechnique originalText⟩
    else
      let distance := levenshteinDistance paranoidText paranoidWord
      let maxLength := max paranoidText.length paranoidWord.length
      let maxAllowedDistance := max opts.maxEditDistance (jsCeilFourTenths paranoidWord.length)
      if distance ≤ maxAllowedDistance then
        let confidence : ℚ := 1 - (distance : ℚ) / (maxLength : ℚ)
        ⟨decide (confidence ≥ 1/2), confidence, paranoidText,
          detectEvasionTechnique originalText⟩
      else
        ⟨false, 0, paranoidText, []⟩
  else
    let normalizedText := EvasionPatterns.normalizeForEvasion text
      { removeSymbols := opts.detectSymbolReplacement
        removeSpaces := opts.detectSpaceInsertion
        normalizeRepeated := opts.detectRepeatedLetters
        substituteCharacters := true
        handleLanguageMixing := opts.detectLanguageMixing }
    if normalizedText = normalizedWord then
      ⟨true, 95/100, normalizedText, detectEvasionTechnique originalText⟩
    else if opts.strictness = 3 ∧
        levenshteinDistance normalizedText normalizedWord ≤ opts.maxEditDistance then
      let distance := levenshteinDistance normalizedText normalizedWord
      let maxLength := max normalizedText.length normalizedWord.length
      let confidence : ℚ := 1 - (distance : ℚ) / (maxLength : ℚ)
      ⟨decide (confidence ≥ 7/10), confidence, normalizedText,
        detectEvasionTechnique originalText⟩
    else
      ⟨false, 0, normalizedText, []⟩

end FuzzyMatcher

namespace FuzzyMatcher

set_option maxRecDepth 4000 in
/-- C3: at strictness 4 (paranoid), `fuzzyMatch` normalizes both strings
with `normalizeParanoid` and returns `matched = true` with confidence
`0.99` when they are equal, `matched = true` with confidence `0.95` when
the normalized text contains the normalized word as a substring, and
otherwise `matched = true` exactly when the Levenshtein distance `d`
between the normalized strings is at most
`max(maxEditDistance, ceil(0.4 · |normalizedWord|))` and the confidence
`1 − d / max(|normalizedText|, |normalizedWord|)` is at least `0.5`. -/
theorem fuzzyMatch_paranoid_spec (opts : FuzzyMatchOptions) (h4 : opts.strictness = 4)
    (text word : List Char) :
    (EvasionPatterns.normalizeParanoid text = EvasionPatterns.normalizeParanoid word →
      (fuzzyMatch opts text word).matched = true ∧
      (fuzzyMatch opts text word).confidence = 99/100) ∧
    (EvasionPatterns.normalizeParanoid text ≠ EvasionPatterns.normalizeParanoid word →
      containsSub (EvasionPatterns.normalizeParanoid word)
        (EvasionPatterns.normalizeParanoid text) = true →
      (fuzzyMatch opts text word).matched = true ∧
      (fuzzyMatch opts text word).confidence = 95/100) ∧
    (EvasionPatterns.normalizeParanoid text ≠ EvasionPatterns.normalizeParanoid word →
      containsSub (EvasionPatterns.normalizeParanoid word)
        (EvasionPatterns.normalizeParanoid text) = false →
      ((fuzzyMatch opts text word).matched = true ↔
        levenshteinDistance (EvasionPatterns.normalizeParanoid text)
            (EvasionPatterns.normalizeParanoid word) ≤
          max opts.maxEditDistance
            (jsCeilFourTenths (EvasionPatterns.normalizeParanoid word).length) ∧
        (1/2 : ℚ) ≤ 1 - (levenshteinDistance (EvasionPatterns.normalizeParanoid text)
            (EvasionPatterns.normalizeParanoid word) : ℚ) /
          (((max (EvasionPatterns.normalizeParanoid text).length
            (EvasionPatterns.normalizeParanoid word).length : Nat) : ℚ)))) := by
  unfold fuzzyMatch
  dsimp only
  rw [h4]
  rw [if_neg (show ¬ ((4 : Nat) = 1) from by decide), if_pos (show (4 : Nat) = 4 from rfl)]
  generalize EvasionPatterns.normalizeParanoid text = pt
  generalize EvasionPatterns.normalizeParanoid word = pw
  refine ⟨?_, ?_, ?_⟩
  · intro heq
    rw [if_pos heq]
    exact ⟨rfl, rfl⟩
  · intro hne hcont
    rw [if_neg hne, if_pos hcont]
    exact ⟨rfl, rfl⟩
  · intro hne hcont
    rw [if_neg hne, if_neg (by simp [hcont])]
    by_cases hd : levenshteinDistance pt pw ≤
        max opts.maxEditDistance (jsCeilFourTenths pw.length)
    · rw [if_pos hd]
      simp only [decide_eq_true_eq, ge_iff_le]
      constructor
      · intro hc
        exact ⟨hd, hc⟩
      · intro hc
        exact hc.2
    · rw [if_neg hd]
      constructor
      · intro h
        simp at h
      · intro hc
        exact absurd hc.1 hd
end FuzzyMatcher


namespace FuzzyMatcher

set_option maxRecDepth 100000 in
/-- Witness for C3: at strictness 4 with `maxEditDistance = 2`,
`fuzzyMatch("fuuuuck", "fuck")` matches with confidence `0.99`
(both sides paranoid-normalize to `"fuck"`). -/
theorem fuzzyMatch_paranoid_spec_witness :
    (fuzzyMatch ⟨4, 2, true, true, true, true⟩ "fuuuuck".data "fuck".data).matched = true ∧
    (fuzzyMatch ⟨4, 2, true, true, true, true⟩ "fuuuuck".data "fuck".data).confidence
      = 99/100 := by
  have w1X : EvasionPatterns.normalizeForEvasion "fuuuuck".data {} = "fuuck".data := by
    have w10 : lowerStr "fuuuuck".data = "fuuuuck".data := by decide
    have w11 : EvasionPatterns.stripInvisible "fuuuuck".data = "fuuuuck".data := by decide
    have w12 : EvasionPatterns.stripTatweel "fuuuuck".data = "fuuuuck".data := by decide
    have w13 : EvasionPatterns.applyArabicNormalization "fuuuuck".data = "fuuuuck".data := by decide
    have w14 : EvasionPatterns.applyLanguageMixing true "fuuuuck".data = "fuuuuck".data := by decide
    have w15 : EvasionPatterns.applyCharacterSubstitutions "fuuuuck".data = "fuuuuck".data := by decide
    have w16 : EvasionPatterns.applySymbolPatterns "fuuuuck".data = "fuuuuck".data := by decide
    have w17 : EvasionPatterns.stripSpaceSeparators "fuuuuck".data = "fuuuuck".data := by decide
    have w18 : EvasionPatterns.collapseRuns 2 "fuuuuck".data = "fuuck".data := by decide
    show EvasionPatterns.collapseRuns 2 (EvasionPatterns.stripSpaceSeparators (EvasionPatterns.applySymbolPatterns (EvasionPatterns.applyCharacterSubstitutions (EvasionPatterns.applyLanguageMixing true (EvasionPatterns.applyArabicNormalization (EvasionPatterns.stripTatweel (EvasionPatterns.stripInvisible (lowerStr "fuuuuck".data)))))))) = "fuuck".data
    rw [w10, w11, w12, w13, w14, w15, w16, w17, w18]
  have w1P : EvasionPatterns.normalizeParanoid "fuuuuck".data = "fuck".data := by
    show EvasionPatterns.collapseRuns 1
      (List.filter EvasionPatterns.isLetterOrDigitJS
        (EvasionPatterns.normalizeForEvasion "fuuuuck".data {})) = "fuck".data
    rw [w1X]
    decide
  have w2X : EvasionPatterns.normalizeForEvasion "fuck".data {} = "fuck".data := by
    have w20 : lowerStr "fuck".data = "fuck".data := by decide
    have w21 : EvasionPatterns.stripInvisible "fuck".data = "fuck".data := by decide
    have w22 : EvasionPatterns.stripTatweel "fuck".data = "fuck".data := by decide
    have w23 : EvasionPatterns.applyArabicNormalization "fuck".data = "fuck".data := by decide
    have w24 : EvasionPatterns.applyLanguageMixing true "fuck".data = "fuck".data := by decide
    have w25 : EvasionPatterns.applyCharacterSubstitutions "fuck".data = "fuck".data := by decide
    have w26 : EvasionPatterns.applySymbolPatterns "fuck".data = "fuck".data := by decide
    have w27 : EvasionPatterns.stripSpaceSeparators "fuck".data = "fuck".data := by decide
    have w28 : EvasionPatterns.collapseRuns 2 "fuck".data = "fuck".data := by decide
    show EvasionPatterns.collapseRuns 2 (EvasionPatterns.stripSpaceSeparators (EvasionPatterns.applySymbolPatterns (EvasionPatterns.applyCharacterSubstitutions (EvasionPatterns.applyLanguageMixing true (EvasionPatterns.applyArabicNormalization (EvasionPatterns.stripTatweel (EvasionPatterns.stripInvisible (lowerStr "fuck".data)))))))) = "fuck".data
    rw [w20, w21, w22, w23, w24, w25, w26, w27, w28]
  have w2P : EvasionPatterns.normalizeParanoid "fuck".data = "fuck".data := by
    show EvasionPatterns.collapseRuns 1
      (List.filter EvasionPatterns.isLetterOrDigitJS
        (EvasionPatterns.normalizeForEvasion "fuck".data {})) = "fuck".data
    rw [w2X]
    decide
  exact (fuzzyMatch_paranoid_spec ⟨4, 2, true, true, true, true⟩ rfl
    "fuuuuck".data "fuck".data).1 (w1P.trans w2P.symm)

end FuzzyMatcher
namespace EvasionPatterns

/-! ## Claim C9: when the language-mixing (folding) stage runs

The source guards the Arabic→Latin lookalike folding with
`options.handleLanguageMixing && hasEnglish`, where `hasEnglish` is
`/[a-z]/i.test(normalized)` — tested on the string as it stands after the
invisible-character, tatweel and Arabic-variant stages, not on the input.
Claim C9 instead keys the stage on the input being mixed-script; we embed
that variant verbatim from the claim's wording and separate the two. -/

/-- Non-Latin (Arabic-script) letters of the fragment this library
manipulates: the Arabic blocks and presentation forms. -/
def hasArabicLetter (s : List Char) : Bool :=
  s.any (fun c =>
    (0x0600 ≤ c.toNat ∧ c.toNat ≤ 0x06FF) ∨
    (0x0750 ≤ c.toNat ∧ c.toNat ≤ 0x077F) ∨
    (0x08A0 ≤ c.toNat ∧ c.toNat ≤ 0x08FF) ∨
    (0xFB50 ≤ c.toNat ∧ c.toNat ≤ 0xFDFF) ∨
    (0xFE70 ≤ c.toNat ∧ c.toNat ≤ 0xFEFC))

/-- The guard as claim C9 words it: the input is mixed-script, i.e.
contains both a Latin letter and a non-Latin letter. -/
def isMixedScript (s : List Char) : Bool :=
  hasAsciiLetter s && hasArabicLetter s

/-- The folding stage as claim C9 words it: run only when the original
input (`input`) is mixed-script; `s` is the pipeline value. -/
def applyLanguageMixingSpec (enabled : Bool) (input s : List Char) : List Char :=
  if enabled && isMixedScript input then
    ARABIC_ENGLISH_LOOKALIKES.foldl (fun s p => replaceChar p.1 p.2 s) s
  else s

/-- `normalizeForEvasion` as claim C9 describes it: the same pipeline, with
the folding stage keyed on the input being mixed-script. -/
def normalizeForEvasionSpecC9 (text : List Char) (opts : EvasionOptions := {}) : List Char :=
  let n0 := lowerStr text
  let n1 := if opts.removeInvisible then stripInvisible n0 else n0
  let n2 := if opts.removeTatweel then stripTatweel n1 else n1
  let n3 := if opts.normalizeArabic then applyArabicNormalization n2 else n2
  let n4 := applyLanguageMixingSpec opts.handleLanguageMixing text n3
  let n5 := if opts.substituteCharacters then applyCharacterSubstitutions n4 else n4
  let n6 := if opts.removeSymbols then applySymbolPatterns n5 else n5
  let n7 := if opts.removeSpaces then stripSpaceSeparators n6 else n6
  let n8 := if opts.normalizeRepeated then collapseRuns 2 n7 else n7
  n8

set_option maxRecDepth 100000 in
/-- C9 counterexample: on the pure-Latin input `"lla"` the source pipeline
and the claim's input-keyed variant disagree.  The Arabic-variant stage
rewrites `l`, `l`, `1`, `I`, `|` to the letter alef, so the intermediate
text `"ااa"` contains an ASCII letter and the source folds it back to
`"aaa"` (collapsed to `"aa"`), even though the input `"lla"` is not
mixed-script; the claim's variant leaves `"ااa"` alone. -/
theorem normalizeForEvasion_mixing_counterexample :
    normalizeForEvasion "lla".data {} ≠ normalizeForEvasionSpecC9 "lla".data {} := by
  have e0 : lowerStr "lla".data = "lla".data := by decide
  have e1 : stripInvisible "lla".data = "lla".data := by decide
  have e2 : stripTatweel "lla".data = "lla".data := by decide
  have e3 : applyArabicNormalization "lla".data = "ااa".data := by decide
  have e4 : applyLanguageMixing true "ااa".data = "aaa".data := by decide
  have e5 : applyCharacterSubstitutions "aaa".data = "aaa".data := by decide
  have e6 : applySymbolPatterns "aaa".data = "aaa".data := by decide
  have e7 : stripSpaceSeparators "aaa".data = "aaa".data := by decide
  have e8 : collapseRuns 2 "aaa".data = "aa".data := by decide
  have hL : normalizeForEvasion "lla".data {} = "aa".data := by
    show collapseRuns 2 (stripSpaceSeparators (applySymbolPatterns (applyCharacterSubstitutions (applyLanguageMixing true (applyArabicNormalization (stripTatweel (stripInvisible (lowerStr "lla".data)))))))) = "aa".data
    rw [e0, e1, e2, e3, e4, e5, e6, e7, e8]
  have f4 : applyLanguageMixingSpec true "lla".data "ااa".data = "ااa".data := by decide
  have f5 : applyCharacterSubstitutions "ااa".data = "ااa".data := by decide
  have f6 : applySymbolPatterns "ااa".data = "ااa".data := by decide
  have f7 : stripSpaceSeparators "ااa".data = "ااa".data := by decide
  have f8 : collapseRuns 2 "ااa".data = "ااa".data := by decide
  have hR : normalizeForEvasionSpecC9 "lla".data {} = "ااa".data := by
    show collapseRuns 2 (stripSpaceSeparators (applySymbolPatterns (applyCharacterSubstitutions (applyLanguageMixingSpec true "lla".data (applyArabicNormalization (stripTatweel (stripInvisible (lowerStr "lla".data)))))))) = "ااa".data
    rw [e0, e1, e2, e3, f4, f5, f6, f7, f8]
  rw [hL, hR]
  decide

/-! ### The true part of C9: input without Latin letters is never folded

Every stage before the folding guard — lowercasing, invisible-character
removal, tatweel removal, Arabic-variant normalization — can only *remove*
ASCII letters, never introduce one, so for input containing no Latin
letter the guard's `hasEnglish` test fails and the folding stage is a
no-op: the run coincides with `handleLanguageMixing` disabled. -/

/-- The ASCII-letter test of `hasAsciiLetter`, as a predicate on one
character. -/
def asciiLetter (c : Char) : Prop :=
  ('a' ≤ c ∧ c ≤ 'z') ∨ ('A' ≤ c ∧ c ≤ 'Z')

instance : DecidablePred asciiLetter := fun c => by
  unfold asciiLetter
  infer_instance

theorem char_le_iff_toNat (c d : Char) : c ≤ d ↔ c.toNat ≤ d.toNat := Iff.rfl

theorem asciiLetter_iff_toNat (c : Char) :
    asciiLetter c ↔
      (0x61 ≤ c.toNat ∧ c.toNat ≤ 0x7A) ∨ (0x41 ≤ c.toNat ∧ c.toNat ≤ 0x5A) := by
  unfold asciiLetter
  rw [char_le_iff_toNat, char_le_iff_toNat, char_le_iff_toNat, char_le_iff_toNat]
  rw [show Char.toNat 'a' = 0x61 from by decide, show Char.toNat 'z' = 0x7A from by decide,
    show Char.toNat 'A' = 0x41 from by decide, show Char.toNat 'Z' = 0x5A from by decide]

theorem hasAsciiLetter_eq_false_iff (s : List Char) :
    hasAsciiLetter s = false ↔ ∀ c ∈ s, ¬ asciiLetter c := by
  simp [hasAsciiLetter, asciiLetter, List.any_eq_false]

/-- Characters produced by `replaceSubGo` come from the replacement or from
the input. -/
theorem mem_replaceSubGo (sep rep : List Char) :
    ∀ (fuel : Nat) (s : List Char), ∀ c ∈ replaceSubGo sep rep fuel s, c ∈ rep ∨ c ∈ s := by
  intro fuel
  induction fuel with
  | zero =>
      intro s c hc
      cases s with
      | nil => exact absurd (by simpa [replaceSubGo] using hc) (List.not_mem_nil c)
      | cons x xs => exact Or.inr (by simpa [replaceSubGo] using hc)
  | succ fuel ih =>
      intro s c hc
      cases s with
      | nil => exact absurd (by simpa [replaceSubGo] using hc) (List.not_mem_nil c)
      | cons x xs =>
          have hstep : replaceSubGo sep rep (fuel + 1) (x :: xs) =
              if sep ≠ [] ∧ sep.isPrefixOf (x :: xs) = true then
                rep ++ replaceSubGo sep rep fuel (List.drop (sep.length - 1) xs)
              else x :: replaceSubGo sep rep fuel xs := rfl
          rw [hstep] at hc
          by_cases hcond : sep ≠ [] ∧ sep.isPrefixOf (x :: xs) = true
          · rw [if_pos hcond] at hc
            rcases List.mem_append.mp hc with h | h
            · exact Or.inl h
            · rcases ih _ c h with h' | h'
              · exact Or.inl h'
              · exact Or.inr (List.mem_cons_of_mem x (List.drop_subset _ _ h'))
          · rw [if_neg hcond] at hc
            rcases List.mem_cons.mp hc with h | h
            · exact Or.inr (h ▸ List.mem_cons_self x xs)
            · rcases ih _ c h with h' | h'
              · exact Or.inl h'
              · exact Or.inr (List.mem_cons_of_mem x h')

theorem mem_replaceSub (sep rep s : List Char) :
    ∀ c ∈ replaceSub sep rep s, c ∈ rep ∨ c ∈ s :=
  mem_replaceSubGo sep rep s.length s

theorem mem_replaceChar (src : Char) (tgt s : List Char) :
    ∀ c ∈ replaceChar src tgt s, c ∈ tgt ∨ c ∈ s := by
  intro c hc
  unfold replaceChar at hc
  rcases List.mem_bind.mp hc with ⟨a, ha, hmem⟩
  by_cases h : a = src
  · rw [if_pos h] at hmem
    exact Or.inl hmem
  · rw [if_neg h] at hmem
    exact Or.inr ((List.mem_singleton.mp hmem) ▸ ha)

theorem mem_subsFold (k : Char) (subs : List (List Char)) :
    ∀ (s : List Char), ∀ c ∈ subs.foldl (fun s sub => replaceSub sub [k] s) s,
      c = k ∨ c ∈ s := by
  induction subs with
  | nil =>
      intro s c hc
      exact Or.inr hc
  | cons sub rest ih =>
      intro s c hc
      rw [List.foldl_cons] at hc
      rcases ih _ c hc with h | h
      · exact Or.inl h
      · rcases mem_replaceSub sub [k] s c h with h' | h'
        · exact Or.inl (List.mem_singleton.mp h')
        · exact Or.inr h'

theorem mem_arabFold (tbl : List (Char × List (List Char))) :
    ∀ (s : List Char),
      ∀ c ∈ tbl.foldl (fun s p => p.2.foldl (fun s sub => replaceSub sub [p.1] s) s) s,
        (∃ p ∈ tbl, c = p.1) ∨ c ∈ s := by
  induction tbl with
  | nil =>
      intro s c hc
      exact Or.inr hc
  | cons p rest ih =>
      intro s c hc
      rw [List.foldl_cons] at hc
      rcases ih _ c hc with h | h
      · rcases h with ⟨q, hq, he⟩
        exact Or.inl ⟨q, List.mem_cons_of_mem p hq, he⟩
      · rcases mem_subsFold p.1 p.2 s c h with h' | h'
        · exact Or.inl ⟨p, List.mem_cons_self p rest, h'⟩
        · exact Or.inr h'

theorem mem_invisFold (chars : List Char) :
    ∀ (s : List Char), ∀ c ∈ chars.foldl (fun s ch => replaceSub [ch] [] s) s, c ∈ s := by
  induction chars with
  | nil =>
      intro s c hc
      exact hc
  | cons ch rest ih =>
      intro s c hc
      rw [List.foldl_cons] at hc
      rcases mem_replaceSub [ch] [] s c (ih _ c hc) with h | h
      · exact absurd h (List.not_mem_nil c)
      · exact h

theorem asciiLetter_jsToLower {c : Char} (h : ¬ asciiLetter c) :
    ¬ asciiLetter (jsToLower c) := by
  rw [asciiLetter_iff_toNat] at h ⊢
  by_cases hc : (0x41 ≤ c.toNat ∧ c.toNat ≤ 0x5A) ∨ (0xFF21 ≤ c.toNat ∧ c.toNat ≤ 0xFF3A)
  · rw [jsToLower_toNat c hc]
    omega
  · rw [jsToLower_toNat_out c hc]
    exact h

theorem noAscii_lowerStr {s : List Char} (h : ∀ c ∈ s, ¬ asciiLetter c) :
    ∀ c ∈ lowerStr s, ¬ asciiLetter c := by
  intro c hc
  rcases List.mem_map.mp hc with ⟨a, ha, he⟩
  exact he ▸ asciiLetter_jsToLower (h a ha)

theorem noAscii_stripInvisible {s : List Char} (h : ∀ c ∈ s, ¬ asciiLetter c) :
    ∀ c ∈ stripInvisible s, ¬ asciiLetter c :=
  fun c hc => h c (mem_invisFold INVISIBLE_CHARACTERS s c hc)

theorem noAscii_stripTatweel {s : List Char} (h : ∀ c ∈ s, ¬ asciiLetter c) :
    ∀ c ∈ stripTatweel s, ¬ asciiLetter c := by
  intro c hc
  rcases mem_replaceChar ARABIC_TATWEEL [] s c hc with h' | h'
  · exact absurd h' (List.not_mem_nil c)
  · exact h c h'

theorem noAscii_applyArabicNormalization {s : List Char} (h : ∀ c ∈ s, ¬ asciiLetter c) :
    ∀ c ∈ applyArabicNormalization s, ¬ asciiLetter c := by
  intro c hc
  unfold applyArabicNormalization at hc
  have hc' := List.mem_of_mem_filter hc
  rcases mem_arabFold ARABIC_SUBSTITUTIONS s c hc' with ⟨p, hp, he⟩ | h'
  · exact he ▸ (show ∀ p ∈ ARABIC_SUBSTITUTIONS, ¬ asciiLetter p.1 from by decide) p hp
  · exact h c h'

theorem pres_ite {Q : Char → Prop} (c : Prop) [Decidable c] {x y : List Char}
    (hx : ∀ a ∈ x, Q a) (hy : ∀ a ∈ y, Q a) : ∀ a ∈ (if c then x else y), Q a := by
  split
  · exact hx
  · exact hy

theorem applyLanguageMixing_of_noAscii {s : List Char} (h : ∀ c ∈ s, ¬ asciiLetter c)
    (b : Bool) : applyLanguageMixing b s = s := by
  unfold applyLanguageMixing
  rw [if_neg]
  intro hcond
  have hf : hasAsciiLetter s = false := (hasAsciiLetter_eq_false_iff s).mpr h
  rw [hf] at hcond
  exact absurd hcond.2 (by decide)

/-- Claim C9, amended.  The folding stage is keyed on the text as it
stands after the Arabic-normalization stages, not on the input: it runs
iff `handleLanguageMixing` is on and the partially-normalized text
contains an ASCII letter.  The true half of the original claim: input
containing no Latin (ASCII) letter is never folded — the run coincides
with the run with `handleLanguageMixing` disabled.  (The other half is
false: a pure-Latin input such as `"lla"` does get transliterated, see the
counterexample.) -/
theorem normalizeForEvasion_pure_nonlatin (text : List Char) (opts : EvasionOptions)
    (h : hasAsciiLetter text = false) :
    normalizeForEvasion text opts =
      normalizeForEvasion text { opts with handleLanguageMixing := false } := by
  have h0 : ∀ c ∈ text, ¬ asciiLetter c := (hasAsciiLetter_eq_false_iff text).mp h
  have h1 : ∀ c ∈ lowerStr text, ¬ asciiLetter c := noAscii_lowerStr h0
  have h2 : ∀ c ∈ (if opts.removeInvisible then stripInvisible (lowerStr text)
      else lowerStr text), ¬ asciiLetter c :=
    pres_ite _ (noAscii_stripInvisible h1) h1
  have h3 : ∀ c ∈ (if opts.removeTatweel then
        stripTatweel (if opts.removeInvisible then stripInvisible (lowerStr text)
          else lowerStr text)
      else (if opts.removeInvisible then stripInvisible (lowerStr text)
          else lowerStr text)), ¬ asciiLetter c :=
    pres_ite _ (noAscii_stripTatweel h2) h2
  have h4 : ∀ c ∈ (if opts.normalizeArabic then
        applyArabicNormalization (if opts.removeTatweel then
          stripTatweel (if opts.removeInvisible then stripInvisible (lowerStr text)
            else lowerStr text)
        else (if opts.removeInvisible then stripInvisible (lowerStr text)
            else lowerStr text))
      else (if opts.removeTatweel then
        stripTatweel (if opts.removeInvisible then stripInvisible (lowerStr text)
          else lowerStr text)
      else (if opts.removeInvisible then stripInvisible (lowerStr text)
          else lowerStr text))), ¬ asciiLetter c :=
    pres_ite _ (noAscii_applyArabicNormalization h3) h3
  unfold normalizeForEvasion
  dsimp only
  rw [applyLanguageMixing_of_noAscii h4 opts.handleLanguageMixing,
    applyLanguageMixing_of_noAscii h4 false]

/-- Witness for the amended C9 theorem at the pure-Arabic input `"لو"`. -/
theorem normalizeForEvasion_pure_nonlatin_witness :
    hasAsciiLetter "لو".data = false ∧
      normalizeForEvasion "لو".data {} =
        normalizeForEvasion "لو".data { handleLanguageMixing := false } :=
  ⟨by decide, normalizeForEvasion_pure_nonlatin "لو".data {} (by decide)⟩

end EvasionPatterns
namespace Filter

/-! ## Claim C10: `SensitiveWordFilter.fuzzyMatchWords` (src/filter.ts)

The fuzzy path of `detect`.  The method normalizes the text and each
candidate word (paranoid normalization at strictness 4, otherwise
`normalizeForEvasion` driven by the detect flags), pushes a match when the
normalized text contains the normalized word, and at strictness 4
additionally consults `fuzzyMatcher.fuzzyMatch`.  Both push sites report
`length: wordEntry.word.length` and
`position: text.toLowerCase().indexOf(wordEntry.word.toLowerCase())`
clamped to `0` when `indexOf` returns `-1`. -/

/-- `SensitiveWord` (src/types.ts): `category` and `language` are optional
string fields. -/
structure SensitiveWord where
  word : List Char
  severity : Int
  category : Option (List Char) := none
  language : Option (List Char) := none
deriving Repr, DecidableEq

/-- The options record of `getFilteredWords` (src/data/loader.ts), with its
declared defaults. -/
structure GetWordsOptions where
  minSeverity : Int := 1
  maxSeverity : Int := 4
  languages : List (List Char) := ["en".data, "ar".data]
  categories : Option (List (List Char)) := none
deriving Repr, DecidableEq

/-- `word.language && !languages.includes(word.language)` — the language
rejection test of `getFilteredWords`; an absent or empty (falsy) language
tag is never rejected. -/
def langExcluded (language : Option (List Char)) (languages : List (List Char)) : Bool :=
  match language with
  | none => false
  | some l => if l = [] then false else if l ∈ languages then false else true

/-- `categories && categories.length > 0` guarding
`!word.category || !categories.includes(word.category)` — the category
rejection test of `getFilteredWords`. -/
def catExcluded (category : Option (List Char)) (categories : Option (List (List Char))) : Bool :=
  match categories with
  | none => false
  | some cats =>
      if cats.length = 0 then false
      else match category with
        | none => true
        | some c => if c = [] then true else if c ∈ cats then false else true

/-- `getFilteredWords(allWords, options)` (src/data/loader.ts). -/
def getFilteredWords (allWords : List SensitiveWord) (opts : GetWordsOptions) :
    List SensitiveWord :=
  allWords.filter (fun word =>
    if word.severity < opts.minSeverity ∨ opts.maxSeverity < word.severity then false
    else if langExcluded word.language opts.languages then false
    else if catExcluded word.category opts.categories then false
    else true)

/-- The fields of `Required<FilterOptions>` that `fuzzyMatchWords` reads. -/
structure FilterOptions where
  strictness : Nat
  minSeverity : Int
  maxSeverity : Int
  languages : List (List Char)
  categories : List (List Char)
  detectSymbolReplacement : Bool
  detectSpaceInsertion : Bool
  detectRepeatedLetters : Bool
  detectLanguageMixing : Bool
deriving Repr, DecidableEq

/-- The `normalizeForEvasion` options literal built inside
`fuzzyMatchWords` from the filter options. -/
def evasionOptsOf (options : FilterOptions) : EvasionPatterns.EvasionOptions :=
  { removeSymbols := options.detectSymbolReplacement
    removeSpaces := options.detectSpaceInsertion
    normalizeRepeated := options.detectRepeatedLetters
    substituteCharacters := true
    handleLanguageMixing := options.detectLanguageMixing
    removeInvisible := true
    removeTatweel := true
    normalizeArabic := true }

/-- `wordEntry.category || 'unknown'` (an empty category string is falsy). -/
def jsCategory : Option (List Char) → List Char
  | none => "unknown".data
  | some c => if c = [] then "unknown".data else c

/-- `String.prototype.indexOf` for a substring needle: the first offset at
which `needle` occurs, `none` for JavaScript's `-1`. -/
def indexOfSub (needle : List Char) : List Char → Option Nat
  | [] => if needle.isPrefixOf [] then some 0 else none
  | c :: t =>
      if needle.isPrefixOf (c :: t) then some 0
      else (indexOfSub needle t).map (· + 1)

/-- The body of the `for (const wordEntry of allWords)` loop of
`fuzzyMatchWords`: the (zero or one) matches pushed for one word entry.
`position >= 0 ? position : 0` is `Option.getD 0` over `indexOfSub`. -/
def fuzzyMatchWord (fmOpts : FuzzyMatcher.FuzzyMatchOptions) (options : FilterOptions)
    (normalizedText text : List Char) (wordEntry : SensitiveWord) : List DetectionMatch :=
  let isParanoidMode := options.strictness = 4
  let normalizedWord :=
    if isParanoidMode then EvasionPatterns.normalizeParanoid wordEntry.word
    else EvasionPatterns.normalizeForEvasion wordEntry.word (evasionOptsOf options)
  if containsSub normalizedWord normalizedText then
    [{ word := wordEntry.word
       severity := wordEntry.severity
       category := jsCategory wordEntry.category
       position := (indexOfSub (lowerStr wordEntry.word) (lowerStr text)).getD 0
       length := wordEntry.word.length }]
  else if isParanoidMode then
    let fuzzyResult := FuzzyMatcher.fuzzyMatch fmOpts normalizedText normalizedWord
    if fuzzyResult.matched then
      [{ word := wordEntry.word
         severity := wordEntry.severity
         category := jsCategory wordEntry.category
         position := (indexOfSub (lowerStr wordEntry.word) (lowerStr text)).getD 0
         length := wordEntry.word.length
         confidence := some fuzzyResult.confidence
         evasionTechniques := some fuzzyResult.evasionTechniques }]
    else []
  else []

/-- `SensitiveWordFilter.fuzzyMatchWords(text, options)` (src/filter.ts).
The filter state enters through `allWords` (`this.allWords`), `customWords`
(`this.customWords`) and `fmOpts` (the options stored in
`this.fuzzyMatcher`). -/
def fuzzyMatchWords (allWords customWords : List SensitiveWord)
    (fmOpts : FuzzyMatcher.FuzzyMatchOptions) (text : List Char)
    (options : FilterOptions) : List DetectionMatch :=
  let isParanoidMode := options.strictness = 4
  let filteredWords := getFilteredWords allWords
    { minSeverity := options.minSeverity
      maxSeverity := options.maxSeverity
      languages := options.languages
      categories := if options.categories.length > 0 then some options.categories else none }
  let words := filteredWords ++ customWords
  let normalizedText :=
    if isParanoidMode then EvasionPatterns.normalizeParanoid text
    else EvasionPatterns.normalizeForEvasion text (evasionOptsOf options)
  words.foldl
    (fun ms wordEntry => ms ++ fuzzyMatchWord fmOpts options normalizedText text wordEntry) []

theorem indexOfSub_eq_none {needle h : List Char} (hc : containsSub needle h = false) :
    indexOfSub needle h = none := by
  induction h with
  | nil =>
      unfold containsSub at hc
      unfold indexOfSub
      rw [if_neg (by simp [hc])]
  | cons c t ih =>
      unfold containsSub at hc
      rcases Bool.or_eq_false_iff.mp hc with ⟨h1, h2⟩
      unfold indexOfSub
      rw [if_neg (by simp [h1]), ih h2]
      rfl

theorem mem_foldl_append {α β : Type} (f : β → List α) (P : α → Prop)
    (hf : ∀ b, ∀ a ∈ f b, P a) :
    ∀ (bs : List β) (acc : List α), (∀ a ∈ acc, P a) →
      ∀ a ∈ bs.foldl (fun acc b => acc ++ f b) acc, P a := by
  intro bs
  induction bs with
  | nil =>
      intro acc hacc a ha
      exact hacc a ha
  | cons b rest ih =>
      intro acc hacc a ha
      rw [List.foldl_cons] at ha
      refine ih (acc ++ f b) ?_ a ha
      intro x hx
      rcases List.mem_append.mp hx with h | h
      · exact hacc x h
      · exact hf b x h

/-- C10: every match produced by the fuzzy path of `detect` reports
`length` equal to the length of the pattern's stored word (never the
length of the span matched in the text), and whenever the word does not
occur case-insensitively as a literal substring of the original input
text, the reported `position` is `0`. -/
theorem fuzzyMatchWords_length_position
    (allWords customWords : List SensitiveWord) (fmOpts : FuzzyMatcher.FuzzyMatchOptions)
    (text : List Char) (options : FilterOptions) :
    ∀ m ∈ fuzzyMatchWords allWords customWords fmOpts text options,
      m.length = m.word.length ∧
        (containsSub (lowerStr m.word) (lowerStr text) = false → m.position = 0) := by
  have hword : ∀ (nt : List Char) (w : SensitiveWord),
      ∀ m ∈ fuzzyMatchWord fmOpts options nt text w,
        m.length = m.word.length ∧
          (containsSub (lowerStr m.word) (lowerStr text) = false → m.position = 0) := by
    intro nt w m hm
    unfold fuzzyMatchWord at hm
    dsimp only at hm
    split_ifs at hm <;>
      first
      | exact absurd hm (List.not_mem_nil m)
      | (have he := List.mem_singleton.mp hm
         subst he
         refine ⟨rfl, fun hc => ?_⟩
         show (indexOfSub (lowerStr w.word) (lowerStr text)).getD 0 = 0
         rw [indexOfSub_eq_none hc]
         rfl)
  unfold fuzzyMatchWords
  dsimp only
  exact mem_foldl_append _ _ (hword _) _ []
    (fun a ha => absurd ha (List.not_mem_nil a))

set_option maxRecDepth 100000 in
/-- Witness for the C10 theorem: one stored word `"damn"`, text
`"d a m n"` (the word is not a literal substring of the text, but the
space-insertion normalization makes the normalized text contain it), any
non-paranoid options.  The single match reports `length = 4` and
`position = 0`. -/
theorem fuzzyMatchWords_length_position_witness :
    ((⟨"damn".data, 2, "unknown".data, 0, 4, none, none⟩ : DetectionMatch) ∈
      fuzzyMatchWords [⟨"damn".data, 2, none, none⟩] []
        ⟨2, 2, true, true, true, true⟩ "d a m n".data
        ⟨2, 1, 4, ["en".data, "ar".data], [], true, true, true, true⟩) ∧
    ((4 : Nat) = "damn".data.length ∧
      (containsSub (lowerStr "damn".data) (lowerStr "d a m n".data) = false →
        (0 : Nat) = 0)) := by
  have dT : EvasionPatterns.normalizeForEvasion "d a m n".data {} = "damn".data := by
    have dT0 : lowerStr "d a m n".data = "d a m n".data := by decide
    have dT1 : EvasionPatterns.stripInvisible "d a m n".data = "d a m n".data := by decide
    have dT2 : EvasionPatterns.stripTatweel "d a m n".data = "d a m n".data := by decide
    have dT3 : EvasionPatterns.applyArabicNormalization "d a m n".data = "d a m n".data := by decide
    have dT4 : EvasionPatterns.applyLanguageMixing true "d a m n".data = "d a m n".data := by decide
    have dT5 : EvasionPatterns.applyCharacterSubstitutions "d a m n".data = "d a m n".data := by decide
    have dT6 : EvasionPatterns.applySymbolPatterns "d a m n".data = "d a m n".data := by decide
    have dT7 : EvasionPatterns.stripSpaceSeparators "d a m n".data = "damn".data := by decide
    have dT8 : EvasionPatterns.collapseRuns 2 "damn".data = "damn".data := by decide
    show EvasionPatterns.collapseRuns 2 (EvasionPatterns.stripSpaceSeparators (EvasionPatterns.applySymbolPatterns (EvasionPatterns.applyCharacterSubstitutions (EvasionPatterns.applyLanguageMixing true (EvasionPatterns.applyArabicNormalization (EvasionPatterns.stripTatweel (EvasionPatterns.stripInvisible (lowerStr "d a m n".data)))))))) = "damn".data
    rw [dT0, dT1, dT2, dT3, dT4, dT5, dT6, dT7, dT8]
  have dW : EvasionPatterns.normalizeForEvasion "damn".data {} = "damn".data := by
    have dW0 : lowerStr "damn".data = "damn".data := by decide
    have dW1 : EvasionPatterns.stripInvisible "damn".data = "damn".data := by decide
    have dW2 : EvasionPatterns.stripTatweel "damn".data = "damn".data := by decide
    have dW3 : EvasionPatterns.applyArabicNormalization "damn".data = "damn".data := by decide
    have dW4 : EvasionPatterns.applyLanguageMixing true "damn".data = "damn".data := by decide
    have dW5 : EvasionPatterns.applyCharacterSubstitutions "damn".data = "damn".data := by decide
    have dW6 : EvasionPatterns.applySymbolPatterns "damn".data = "damn".data := by decide
    have dW7 : EvasionPatterns.stripSpaceSeparators "damn".data = "damn".data := by decide
    have dW8 : EvasionPatterns.collapseRuns 2 "damn".data = "damn".data := by decide
    show EvasionPatterns.collapseRuns 2 (EvasionPatterns.stripSpaceSeparators (EvasionPatterns.applySymbolPatterns (EvasionPatterns.applyCharacterSubstitutions (EvasionPatterns.applyLanguageMixing true (EvasionPatterns.applyArabicNormalization (EvasionPatterns.stripTatweel (EvasionPatterns.stripInvisible (lowerStr "damn".data)))))))) = "damn".data
    rw [dW0, dW1, dW2, dW3, dW4, dW5, dW6, dW7, dW8]
  have hone : fuzzyMatchWord ⟨2, 2, true, true, true, true⟩
      ⟨2, 1, 4, ["en".data, "ar".data], [], true, true, true, true⟩
      "damn".data "d a m n".data ⟨"damn".data, 2, none, none⟩ =
      [⟨"damn".data, 2, "unknown".data, 0, 4, none, none⟩] := by
    show (if containsSub (EvasionPatterns.normalizeForEvasion "damn".data {}) "damn".data = true then
        [(⟨"damn".data, 2, jsCategory none,
          (indexOfSub (lowerStr "damn".data) (lowerStr "d a m n".data)).getD 0,
          "damn".data.length, none, none⟩ : DetectionMatch)]
      else if (2 : Nat) = 4 then
        (if (FuzzyMatcher.fuzzyMatch ⟨2, 2, true, true, true, true⟩ "damn".data
            (EvasionPatterns.normalizeForEvasion "damn".data {})).matched = true then
          [(⟨"damn".data, 2, jsCategory none,
            (indexOfSub (lowerStr "damn".data) (lowerStr "d a m n".data)).getD 0,
            "damn".data.length,
            some (FuzzyMatcher.fuzzyMatch ⟨2, 2, true, true, true, true⟩ "damn".data
              (EvasionPatterns.normalizeForEvasion "damn".data {})).confidence,
            some (FuzzyMatcher.fuzzyMatch ⟨2, 2, true, true, true, true⟩ "damn".data
              (EvasionPatterns.normalizeForEvasion "damn".data {})).evasionTechniques⟩ : DetectionMatch)]
        else [])
      else []) = [(⟨"damn".data, 2, "unknown".data, 0, 4, none, none⟩ : DetectionMatch)]
    rw [dW]
    decide
  have hm : fuzzyMatchWords [⟨"damn".data, 2, none, none⟩] []
      ⟨2, 2, true, true, true, true⟩ "d a m n".data
      ⟨2, 1, 4, ["en".data, "ar".data], [], true, true, true, true⟩ =
      [⟨"damn".data, 2, "unknown".data, 0, 4, none, none⟩] := by
    show List.foldl
        (fun ms wordEntry => ms ++ fuzzyMatchWord ⟨2, 2, true, true, true, true⟩
          ⟨2, 1, 4, ["en".data, "ar".data], [], true, true, true, true⟩
          (EvasionPatterns.normalizeForEvasion "d a m n".data {}) "d a m n".data wordEntry)
        []
        (getFilteredWords [⟨"damn".data, 2, none, none⟩] ⟨1, 4, ["en".data, "ar".data], none⟩ ++ []) =
      [⟨"damn".data, 2, "unknown".data, 0, 4, none, none⟩]
    rw [dT]
    rw [show getFilteredWords [(⟨"damn".data, 2, none, none⟩ : SensitiveWord)]
        ⟨1, 4, ["en".data, "ar".data], none⟩ ++ [] = [⟨"damn".data, 2, none, none⟩] from by decide]
    rw [List.foldl_cons, List.foldl_nil, List.nil_append]
    exact hone
  have hmem : (⟨"damn".data, 2, "unknown".data, 0, 4, none, none⟩ : DetectionMatch) ∈
      fuzzyMatchWords [⟨"damn".data, 2, none, none⟩] []
        ⟨2, 2, true, true, true, true⟩ "d a m n".data
        ⟨2, 1, 4, ["en".data, "ar".data], [], true, true, true, true⟩ := by
    rw [hm]
    exact List.mem_singleton_self _
  exact ⟨hmem, fuzzyMatchWords_length_position [⟨"damn".data, 2, none, none⟩] []
    ⟨2, 2, true, true, true, true⟩ "d a m n".data
    ⟨2, 1, 4, ["en".data, "ar".data], [], true, true, true, true⟩ _ hmem⟩

end Filter
namespace Filter

/-! ## Claim C8: `addWords` validates the whole batch before mutating

`SensitiveWordFilter.addWords(words)` (src/filter.ts) runs `validateWord`
(src/data/loader.ts) over every element of the batch and throws on the
first invalid one; only after the loop does it push the words and rebuild
the automaton, so a throwing call leaves `this.customWords` (from which
the automaton is rebuilt deterministically) untouched.  We model the
throwing method as an `Except` value over the custom-word list: `.error`
carries the offending word (the message interpolates it), `.ok` the new
list; the automaton is a function of that list. -/

/-- `word.language && !['en', 'ar'].includes(word.language)` — the
unsupported-language test of `validateWord`; an absent or empty (falsy)
tag is not rejected. -/
def langUnsupported : Option (List Char) → Bool
  | none => false
  | some l => if l = [] then false else if l = "en".data ∨ l = "ar".data then false else true

/-- `validateWord(word)` (src/data/loader.ts).  The `typeof` checks hold
by typing in the embedding; `!word.word` (empty string is falsy) and the
blank-after-`trim` test form the first guard. -/
def validateWord (word : SensitiveWord) : Bool :=
  if word.word = [] ∨ (Normalizer.trimWs word.word).length = 0 then false
  else if word.severity < 1 ∨ 4 < word.severity then false
  else if langUnsupported word.language then false
  else true

/-- The validation loop of `addWords`: the first word of the batch failing
`validateWord`, if any. -/
def firstInvalid : List SensitiveWord → Option SensitiveWord
  | [] => none
  | w :: rest => if validateWord w then firstInvalid rest else some w

/-- `addWords(words)` over the filter's custom-word list: validate the
entire batch, then append every word (the caller rebuilds the automaton
from the returned list); a throw is `.error` with the offending word, and
the pre-call list survives untouched at the caller. -/
def addWords (customWords ws : List SensitiveWord) :
    Except SensitiveWord (List SensitiveWord) :=
  match firstInvalid ws with
  | some w => Except.error w
  | none => Except.ok (customWords ++ ws)

theorem addWords_eq_error {customWords ws : List SensitiveWord} {v : SensitiveWord}
    (h : firstInvalid ws = some v) : addWords customWords ws = Except.error v := by
  unfold addWords
  rw [h]

theorem addWords_eq_ok {customWords ws : List SensitiveWord}
    (h : firstInvalid ws = none) :
    addWords customWords ws = Except.ok (customWords ++ ws) := by
  unfold addWords
  rw [h]

theorem firstInvalid_eq_none_iff :
    ∀ ws : List SensitiveWord, firstInvalid ws = none ↔ ∀ w ∈ ws, validateWord w = true := by
  intro ws
  induction ws with
  | nil => simp [firstInvalid]
  | cons w rest ih =>
      cases hv : validateWord w with
      | true => simp [firstInvalid, hv, ih, List.forall_mem_cons]
      | false => simp [firstInvalid, hv, List.forall_mem_cons]

theorem firstInvalid_some_spec :
    ∀ {ws : List SensitiveWord} {v : SensitiveWord}, firstInvalid ws = some v →
      v ∈ ws ∧ validateWord v = false := by
  intro ws
  induction ws with
  | nil =>
      intro v h
      simp [firstInvalid] at h
  | cons w rest ih =>
      intro v h
      unfold firstInvalid at h
      cases hv : validateWord w with
      | true =>
          rw [if_pos hv] at h
          rcases ih h with ⟨hm, hf⟩
          exact ⟨List.mem_cons_of_mem w hm, hf⟩
      | false =>
          rw [if_neg (by simp [hv])] at h
          cases h
          exact ⟨List.mem_cons_self _ _, hv⟩

/-- C8: `addWords` throws exactly when some element of the batch is
invalid — blank word, severity outside 1–4, or a non-empty language tag
other than `"en"`/`"ar"` — and since the whole batch is validated before
any mutation, a throwing call leaves the custom-word list (hence the
automaton rebuilt from it) exactly as before, while a fully valid batch
appends every element. -/
theorem addWords_all_or_nothing (customWords ws : List SensitiveWord) :
    ((∃ v, addWords customWords ws = Except.error v) ↔
      ∃ w ∈ ws, validateWord w = false) ∧
    ((∀ w ∈ ws, validateWord w = true) →
      addWords customWords ws = Except.ok (customWords ++ ws)) ∧
    (∀ w : SensitiveWord, validateWord w = false ↔
      ((Normalizer.trimWs w.word).length = 0 ∨
        w.severity < 1 ∨ 4 < w.severity ∨
        ∃ l, w.language = some l ∧ l ≠ [] ∧ l ≠ "en".data ∧ l ≠ "ar".data)) := by
  refine ⟨⟨?_, ?_⟩, ?_, ?_⟩
  · rintro ⟨v, hv⟩
    cases hfi : firstInvalid ws with
    | none =>
        rw [addWords_eq_ok hfi] at hv
        exact Except.noConfusion hv
    | some u =>
        rcases firstInvalid_some_spec hfi with ⟨hm, hf⟩
        exact ⟨u, hm, hf⟩
  · rintro ⟨w, hmem, hval⟩
    cases hfi : firstInvalid ws with
    | none =>
        have hcon := (firstInvalid_eq_none_iff ws).mp hfi w hmem
        rw [hval] at hcon
        cases hcon
    | some u => exact ⟨u, addWords_eq_error hfi⟩
  · intro hall
    exact addWords_eq_ok ((firstInvalid_eq_none_iff ws).mpr hall)
  · intro w
    unfold validateWord
    split_ifs with h1 h2 h3
    · simp only [true_iff]
      rcases h1 with h1 | h1
      · exact Or.inl (by rw [h1]; decide)
      · exact Or.inl h1
    · simp only [true_iff]
      rcases h2 with h2 | h2
      · exact Or.inr (Or.inl h2)
      · exact Or.inr (Or.inr (Or.inl h2))
    · simp only [true_iff]
      refine Or.inr (Or.inr (Or.inr ?_))
      cases hl : w.language with
      | none => rw [hl] at h3; exact absurd h3 (by decide)
      | some l =>
          rw [hl, show langUnsupported (some l) =
            (if l = [] then false
             else if l = "en".data ∨ l = "ar".data then false else true) from rfl] at h3
          by_cases he : l = []
          · rw [if_pos he] at h3; cases h3
          · rw [if_neg he] at h3
            by_cases hen : l = "en".data ∨ l = "ar".data
            · rw [if_pos hen] at h3; cases h3
            · push_neg at hen
              exact ⟨l, rfl, he, hen.1, hen.2⟩
    · simp only [false_iff]
      push_neg at h1 h2
      rintro (hc | hc | hc | ⟨l, hl, hle, hlen, hlar⟩)
      · exact absurd hc h1.2
      · omega
      · omega
      · rw [hl, show langUnsupported (some l) =
            (if l = [] then false
             else if l = "en".data ∨ l = "ar".data then false else true) from rfl] at h3
        rw [if_neg hle, if_neg (fun hor => hor.elim hlen hlar)] at h3
        exact h3 rfl

/-- Witness for the C8 theorem: adding the valid batch `[{word: "ok",
severity: 2}]` to an empty custom list succeeds and appends it. -/
theorem addWords_all_or_nothing_witness :
    (∀ w ∈ [(⟨"ok".data, 2, none, none⟩ : SensitiveWord)], validateWord w = true) ∧
      addWords [] [(⟨"ok".data, 2, none, none⟩ : SensitiveWord)] =
        Except.ok [(⟨"ok".data, 2, none, none⟩ : SensitiveWord)] :=
  ⟨by decide, (addWords_all_or_nothing [] [⟨"ok".data, 2, none, none⟩]).2.1 (by decide)⟩

end Filter
namespace Filter

/-! ## Claim C2: context-aware dropping (`isOnlyInSafeContext`)

`shouldKeepMatch` (src/filter.ts) drops a whitelisted word, and — in
context-aware mode — drops a match for which `isOnlyInSafeContext`
returns `true`.  `isOnlyInSafeContext` first tests
`\b<escaped lowercased word>\b` (case-insensitively) against the text;
if the word is standalone the match is kept.  Otherwise it splits the
lowercased text on `[\s,.\-;:!?"'()[\]{}]+`, strips every
non-letter/digit from each token, and walks the tokens: a token equal to
the word returns `false` (real match); a token merely containing the word
`continue`s whether or not it belongs to `CONTEXT_SAFE_WORDS` — the two
branches of the loop are observationally identical — and the loop falls
through to `return true`.

We embed the loop verbatim (both `continue` branches) and prove that the
safe-word set has no effect on the verdict; claim C2's reading — a match
inside a word *not* in the safe set is kept — is refuted on
`"badassery"` / `"ass"`. -/

def CONTEXT_SAFE_WORDS : List (List Char) := [
  "assessment".data, "assassin".data, "assign".data, "assist".data, "assume".data,
  "associate".data, "assemble".data, "class".data, "classic".data, "mass".data,
  "massive".data, "pass".data, "passage".data, "passenger".data, "passion".data,
  "compass".data, "embassy".data, "harass".data, "brass".data, "grass".data,
  "glass".data, "bypass".data, "trespass".data, "cassette".data, "bassoon".data,
  "lasso".data, "molasses".data, "sassafras".data, "ambassador".data, "embarrass".data,
  "hello".data, "shell".data, "shellfish".data, "michelle".data, "seashell".data,
  "nutshell".data, "eggshell".data, "goddamn".data, "amsterdam".data, "cocktail".data,
  "peacock".data, "hancock".data, "cockpit".data, "cockatoo".data, "cocoon".data,
  "weathercock".data, "dickens".data, "dictate".data, "dictionary".data, "predict".data,
  "verdict".data, "addiction".data, "benediction".data, "document".data, "cucumber".data,
  "accumulate".data, "circumstance".data, "circumference".data, "incumbent".data, "sextant".data,
  "sextet".data, "essex".data, "sussex".data, "middlesex".data, "title".data,
  "entitled".data, "institution".data, "constitution".data, "attitude".data, "gratitude".data,
  "competitive".data, "repetitive".data, "appetizer".data, "titanium".data, "titan".data,
  "mississippi".data, "analysis".data, "analyze".data, "analyst".data, "analytical".data,
  "canal".data, "banal".data, "final".data, "signal".data, "night".data,
  "nightmare".data, "knight".data, "ignite".data, "significant".data, "benign".data,
  "malignant".data, "fagot".data, "honest".data, "honor".data, "horse".data,
  "hospital".data, "host".data, "hotel".data, "hope".data, "horizon".data,
  "scrap".data, "scrape".data, "scumble".data, "scunthorpe".data, "penistone".data,
  "shitterton".data, "cockermouth".data, "clitheroe".data, "lightwater".data, "arsenal".data]
/-- JS regex word character `\w` = `[A-Za-z0-9_]` (used by `\b`). -/
def isWordCharJS (c : Char) : Bool :=
  ('a' ≤ c ∧ c ≤ 'z') ∨ ('A' ≤ c ∧ c ≤ 'Z') ∨ ('0' ≤ c ∧ c ≤ '9') ∨ c = '_'

/-- Whether the character at index `i` (if any) is a `\w` character. -/
def wordAt (s : List Char) (i : Nat) : Bool :=
  match s.get? i with
  | some c => isWordCharJS c
  | none => false

/-- `\b` at position `p` of `s`: exactly one of the two adjacent positions
holds a word character. -/
def boundaryAt (s : List Char) (p : Nat) : Bool :=
  (if p = 0 then false else wordAt s (p - 1)) != wordAt s p

/-- `existsAsStandaloneWord(text, matchWord)` (src/filter.ts): test
`\b<escaped lowercased matchWord>\b` case-insensitively — i.e. the
lowercased word occurs in the lowercased text with `\b` on both sides
(`escapeRegex` makes the pattern a literal). -/
def existsAsStandaloneWord (text matchWord : List Char) : Bool :=
  let lowerText := lowerStr text
  let lowerMatch := lowerStr matchWord
  (List.range (lowerText.length + 1)).any (fun i =>
    lowerMatch.isPrefixOf (lowerText.drop i) ∧
    boundaryAt lowerText i ∧ boundaryAt lowerText (i + lowerMatch.length))

/-- The token-separator class `[\s,.\-;:!?"'()[\]{}]`. -/
def isTokenSep (c : Char) : Bool :=
  EvasionPatterns.jsWhitespace c ∨
  c ∈ [',', '.', '-', ';', ':', '!', '?', '"', '\'', '(', ')', '[', ']',
    Char.ofNat 0x7B, Char.ofNat 0x7D]

/-- Split on single separator characters (worker of `splitTokens`). -/
def splitSepGo : List Char → List Char → List (List Char)
  | [], acc => [acc.reverse]
  | c :: rest, acc =>
      if isTokenSep c then acc.reverse :: splitSepGo rest []
      else splitSepGo rest (c :: acc)

/-- `lowerText.split(/[\s,.\-;:!?"'()[\]{}]+/)`.  Splitting on single
separators instead of maximal runs yields the same tokens plus extra
empty ones; the consumer skips every token that cleans to the empty
string, so the two are interchangeable. -/
def splitTokens (s : List Char) : List (List Char) :=
  splitSepGo s []

/-- The `for (const word of words)` loop of `isOnlyInSafeContext`, with
both `continue` branches of the source kept: a cleaned token equal to the
match word returns `false`; a token merely containing it falls through
whether or not it is in `CONTEXT_SAFE_WORDS`. -/
def safeLoop (lowerMatch : List Char) : List (List Char) → Bool
  | [] => true
  | word :: rest =>
      let cleanWord := word.filter EvasionPatterns.isLetterOrDigitJS
      if cleanWord = [] then safeLoop lowerMatch rest
      else if containsSub lowerMatch cleanWord then
        if cleanWord = lowerMatch then false
        else if cleanWord ∈ CONTEXT_SAFE_WORDS then safeLoop lowerMatch rest
        else safeLoop lowerMatch rest
      else safeLoop lowerMatch rest

/-- `isOnlyInSafeContext(text, matchWord)` (src/filter.ts); `true` means
the caller drops the match. -/
def isOnlyInSafeContext (text matchWord : List Char) : Bool :=
  if existsAsStandaloneWord text matchWord then false
  else safeLoop (lowerStr matchWord) (splitTokens (lowerStr text))

/-- `isWhitelisted(word)`: the whitelist holds the lowercased form or the
word itself. -/
def isWhitelisted (whitelist : List (List Char)) (word : List Char) : Bool :=
  lowerStr word ∈ whitelist ∨ word ∈ whitelist

/-- `shouldKeepMatch(text, match, contextAware)` (src/filter.ts). -/
def shouldKeepMatch (whitelist : List (List Char)) (text : List Char)
    (m : DetectionMatch) (contextAware : Bool) : Bool :=
  if isWhitelisted whitelist m.word then false
  else if contextAware then
    if isOnlyInSafeContext text m.word then false else true
  else true

/-- `isOnlyInSafeContext` as claim C2 words it: the word is nowhere
standalone and every cleaned token containing it belongs to the safe set
(so a containing token outside the set keeps the match). -/
def isOnlyInSafeContextSpec (text matchWord : List Char) : Bool :=
  existsAsStandaloneWord text matchWord = false ∧
  (splitTokens (lowerStr text)).all (fun word =>
    let cleanWord := word.filter EvasionPatterns.isLetterOrDigitJS
    cleanWord = [] ∨ containsSub (lowerStr matchWord) cleanWord = false ∨
      cleanWord ∈ CONTEXT_SAFE_WORDS)

theorem isPrefixOf_refl (l : List Char) : l.isPrefixOf l = true := by
  induction l with
  | nil => rfl
  | cons c t ih => simp [List.isPrefixOf, ih]

theorem containsSub_self (l : List Char) : containsSub l l = true := by
  cases l with
  | nil => rfl
  | cons c t =>
      unfold containsSub
      rw [isPrefixOf_refl]
      simp

/-- The safe-word set has no influence on the loop: it returns `true` iff
no token cleans to exactly the match word. -/
theorem safeLoop_eq_true_iff (lowerMatch : List Char) :
    ∀ words : List (List Char), safeLoop lowerMatch words = true ↔
      ∀ w ∈ words, w.filter EvasionPatterns.isLetterOrDigitJS ≠ [] →
        w.filter EvasionPatterns.isLetterOrDigitJS ≠ lowerMatch := by
  intro words
  induction words with
  | nil => simp [safeLoop]
  | cons w rest ih =>
      unfold safeLoop
      dsimp only
      split_ifs with h1 h2 h3 h4
      · rw [ih, List.forall_mem_cons]
        simp [h1]
      · refine iff_of_false (by simp) ?_
        rw [List.forall_mem_cons]
        rintro ⟨hw, h⟩
        exact (hw h1) h3
      · rw [ih, List.forall_mem_cons]
        simp [h3]
      · rw [ih, List.forall_mem_cons]
        simp [h3]
      · rw [ih, List.forall_mem_cons]
        have hne : w.filter EvasionPatterns.isLetterOrDigitJS ≠ lowerMatch := by
          intro he
          rw [he] at h2
          exact h2 (containsSub_self lowerMatch)
        simp [hne]

set_option maxRecDepth 10000 in
/-- C2 counterexample: with pattern `"ass"` and text `"badassery"` the
filter (context-aware, empty whitelist) drops the match even though the
only containing token, `badassery`, is not in the safe-word set — by the
claim the match should be kept (its drop condition, embedded as
`isOnlyInSafeContextSpec`, does not hold). -/
theorem shouldKeepMatch_counterexample :
    shouldKeepMatch [] "badassery".data ⟨"ass".data, 2, [], 0, 3, none, none⟩ true = false ∧
      isOnlyInSafeContextSpec "badassery".data "ass".data = false := by
  decide

/-- C2 amended: with context-aware mode on, a match is dropped iff it is
whitelisted, or its word is not standalone in the text (no `\b`-bounded
occurrence) and no token of the separator-split text cleans to exactly
the word.  The curated safe-word set never affects the verdict. -/
theorem shouldKeepMatch_spec (whitelist : List (List Char)) (text : List Char)
    (m : DetectionMatch) :
    shouldKeepMatch whitelist text m true = false ↔
      (isWhitelisted whitelist m.word = true ∨
        (existsAsStandaloneWord text m.word = false ∧
          ∀ w ∈ splitTokens (lowerStr text),
            w.filter EvasionPatterns.isLetterOrDigitJS ≠ [] →
              w.filter EvasionPatterns.isLetterOrDigitJS ≠ lowerStr m.word)) := by
  unfold shouldKeepMatch
  by_cases hw : isWhitelisted whitelist m.word = true
  · rw [if_pos hw]
    exact iff_of_true rfl (Or.inl hw)
  · rw [if_neg hw, if_pos rfl]
    unfold isOnlyInSafeContext
    by_cases hs : existsAsStandaloneWord text m.word = true
    · rw [if_pos hs]
      refine iff_of_false (by simp) ?_
      rintro (h | ⟨h, _⟩)
      · exact hw h
      · rw [hs] at h
        cases h
    · rw [if_neg hs]
      have hs' : existsAsStandaloneWord text m.word = false := by
        cases hb : existsAsStandaloneWord text m.word
        · rfl
        · exact absurd hb hs
      by_cases hl : safeLoop (lowerStr m.word) (splitTokens (lowerStr text)) = true
      · rw [hl]
        refine iff_of_true rfl (Or.inr ⟨hs', ?_⟩)
        exact (safeLoop_eq_true_iff (lowerStr m.word) (splitTokens (lowerStr text))).mp hl
      · have hl' : safeLoop (lowerStr m.word) (splitTokens (lowerStr text)) = false := by
          cases hb : safeLoop (lowerStr m.word) (splitTokens (lowerStr text))
          · rfl
          · exact absurd hb hl
        rw [hl']
        refine iff_of_false (by simp) ?_
        rintro (h | ⟨h, hall⟩)
        · exact hw h
        · exact hl ((safeLoop_eq_true_iff (lowerStr m.word) (splitTokens (lowerStr text))).mpr hall)

set_option maxRecDepth 10000 in
/-- The claim's concrete examples, which do hold of the source: pattern
`"ass"` matches the standalone token in `"what an ass"` but is dropped
inside `"assessment"` and `"class"`. -/
theorem ass_context_examples :
    shouldKeepMatch [] "what an ass".data ⟨"ass".data, 2, [], 8, 3, none, none⟩ true = true ∧
    shouldKeepMatch [] "the assessment".data ⟨"ass".data, 2, [], 4, 3, none, none⟩ true = false ∧
    shouldKeepMatch [] "my class".data ⟨"ass".data, 2, [], 4, 3, none, none⟩ true = false := by
  decide

end Filter
namespace Trie

/-! ## `AhoCorasickTrie` (src/trie.ts)

Trie nodes are identified by their path from the root (the string spelled
by the edges): the `children` map of the source keys child objects by
character, every node has a unique parent, and node objects are created
exactly once, so a node *is* its path.  The trie state is the list of
node paths in creation order (`Map` iteration order is insertion order),
the terminal data (`isEndOfWord`, `originalWord`, `severity`, `category`)
as an association list keyed by path, and the failure links as an
association list keyed by path (root = `[]`).  The `while` loops of the
source and the BFS queue are modelled with explicit fuel; every fuel
value used is shown (or chosen generously enough) to cover the loops. -/

/-- One entry of `search`'s result array. -/
structure TrieMatch where
  word : List Char
  severity : Int
  category : List Char
  position : Nat
  length : Nat
deriving Repr, DecidableEq

structure ACTrie where
  paths : List (List Char)
  terms : List (List Char × (List Char × Int × List Char))
  fail : List (List Char × List Char)
deriving Repr, DecidableEq

/-- `new AhoCorasickTrie()`. -/
def emptyTrie : ACTrie := ⟨[], [], []⟩

/-- The nonempty prefixes of `w`, shortest first — the nodes the insert
loop walks (creating the missing ones in this order). -/
def prefixesOf (w : List Char) : List (List Char) :=
  (List.range w.length).map (fun i => w.take (i + 1))

/-- `insert(word, severity, category)`: walk/create the nodes of the
lowercased word and overwrite the terminal data of the final node with
`originalWord = word` (original case) and the given fields. -/
def insert (t : ACTrie) (word : List Char) (severity : Int) (category : List Char) : ACTrie :=
  let nw := lowerStr word
  { paths := t.paths ++ (prefixesOf nw).filter (fun p => p ∉ t.paths)
    terms := t.terms.filter (fun e => e.1 ≠ nw) ++ [(nw, (word, severity, category))]
    fail := t.fail }

/-- Insert a batch of `(word, severity, category)` patterns in order. -/
def insertAll (ws : List (List Char × Int × List Char)) : ACTrie :=
  ws.foldl (fun t w => insert t w.1 w.2.1 w.2.2) emptyTrie

/-- `node.children.has(c)` for the node at path `p`. -/
def hasChild (paths : List (List Char)) (p : List Char) (c : Char) : Bool :=
  (p ++ [c]) ∈ paths

/-- The child characters of the node at path `p`, in `Map` iteration
(creation) order. -/
def childrenOf (paths : List (List Char)) (p : List Char) : List Char :=
  paths.filterMap (fun q => if q ≠ [] ∧ q.dropLast = p then q.getLast? else none)

/-- `this.failureLinks.get(p)`. -/
def lookupFail (fail : List (List Char × List Char)) (p : List Char) : Option (List Char) :=
  fail.lookup p

/-- The `while (failNode && failNode !== this.root &&
!failNode.children.has(char))` loop of `buildFailureLinks`. -/
def failWalk (paths : List (List Char)) (fail : List (List Char × List Char)) (c : Char) :
    Nat → Option (List Char) → Option (List Char)
  | 0, fn => fn
  | Nat.succ k, fn =>
      match fn with
      | none => none
      | some p =>
          if p ≠ [] ∧ ¬ hasChild paths p c then failWalk paths fail c k (lookupFail fail p)
          else some p

/-- The body of the `for (const [char, child] of current.children)` loop
of `buildFailureLinks`: push the child onto the queue and assign its
failure link (walking the failure chain of `current`). -/
def bfsStep (paths : List (List Char)) (current : List Char)
    (acc : List (List Char × List Char) × List (List Char)) (c : Char) :
    List (List Char × List Char) × List (List Char) :=
  let child := current ++ [c]
  let fn := failWalk paths acc.1 c current.length (lookupFail acc.1 current)
  let tgt := match fn with
    | some p => if hasChild paths p c ∧ ¬(p ++ [c] = child) then p ++ [c] else []
    | none => []
  (acc.1 ++ [(child, tgt)], acc.2 ++ [child])

/-- The BFS loop of `buildFailureLinks`: take the head of the queue,
push every child onto the queue and assign its failure link.  The fuel
bounds the number of dequeues; `paths.length` is exactly the total number
of nodes ever enqueued. -/
def buildGo (paths : List (List Char)) :
    Nat → List (List Char) → List (List Char × List Char) → List (List Char × List Char)
  | 0, _, fail => fail
  | _, [], fail => fail
  | Nat.succ fuel, current :: queue, fail =>
      let st := (childrenOf paths current).foldl (bfsStep paths current) (fail, queue)
      buildGo paths fuel st.2 st.1

/-- `buildFailureLinks()`: depth-1 nodes fail to the root, then BFS. -/
def buildFailureLinks (t : ACTrie) : ACTrie :=
  let rootChildren := childrenOf t.paths []
  let queue0 := rootChildren.map (fun c => [c])
  let fail0 := rootChildren.map (fun c => ([c], ([] : List Char)))
  { t with fail := buildGo t.paths t.paths.length queue0 fail0 }

/-- `isWordChar(char)` (src/trie.ts):
`/[\w؀-ۿݐ-ݿࢠ-ࣿ]/u` — note that `\w` is
`[A-Za-z0-9_]`, underscore included. -/
def isWordChar (c : Char) : Bool :=
  ('a' ≤ c ∧ c ≤ 'z') ∨ ('A' ≤ c ∧ c ≤ 'Z') ∨ ('0' ≤ c ∧ c ≤ '9') ∨ c = '_' ∨
  (0x0600 ≤ c.toNat ∧ c.toNat ≤ 0x06FF) ∨
  (0x0750 ≤ c.toNat ∧ c.toNat ≤ 0x077F) ∨
  (0x08A0 ≤ c.toNat ∧ c.toNat ≤ 0x08FF)

/-- `!this.isWordChar(text[i])`, `true` when `i` is out of range. -/
def nonWordAt (text : List Char) (i : Nat) : Bool :=
  match text.get? i with
  | some ch => ! isWordChar ch
  | none => true

/-- `isWordBoundary(text, start, end)` (src/trie.ts). -/
def isWordBoundary (text : List Char) (s e : Nat) : Bool :=
  (s = 0 ∨ nonWordAt text (s - 1) = true) ∧ (e ≥ text.length ∨ nonWordAt text e = true)

/-- The `while (node !== this.root && !node.children.has(char))` descent
of `search`; a missing failure link falls back to the root. -/
def descend (paths : List (List Char)) (fail : List (List Char × List Char)) (c : Char) :
    Nat → List Char → List Char
  | 0, node => node
  | Nat.succ k, node =>
      if node ≠ [] ∧ ¬ hasChild paths node c then
        descend paths fail c k ((lookupFail fail node).getD [])
      else node

/-- The `while (checkNode && checkNode !== this.root)` collection loop of
`search` at text index `i`: emit a result for every terminal node on the
failure chain (the JS `i - wordLength + 1` is `i + 1 - wordLength`, never
negative because the word length is at most `i + 1`). -/
def collectGo (t : ACTrie) (textNorm : List Char) (partialMatch : Bool) (i : Nat) :
    Nat → Option (List Char) → List TrieMatch
  | 0, _ => []
  | Nat.succ k, fn =>
      match fn with
      | none => []
      | some p =>
          if p = [] then []
          else
            let rest := collectGo t textNorm partialMatch i k (lookupFail t.fail p)
            match t.terms.lookup p with
            | some e =>
                let wordLength := e.1.length
                let position := i + 1 - wordLength
                if partialMatch ∨ isWordBoundary textNorm position (position + wordLength) then
                  ⟨e.1, e.2.1, e.2.2, position, wordLength⟩ :: rest
                else rest
            | none => rest

/-- The `for (let i = 0; ...)` loop of `search` over the remaining text,
carrying the index and the current node. -/
def searchGo (t : ACTrie) (textNorm : List Char) (partialMatch : Bool) :
    List Char → Nat → List Char → List TrieMatch
  | [], _, _ => []
  | c :: rest, i, node =>
      let node1 := descend t.paths t.fail c node.length node
      let node2 := if hasChild t.paths node1 c then node1 ++ [c] else node1
      collectGo t textNorm partialMatch i (node2.length + 1) (some node2) ++
        searchGo t textNorm partialMatch rest (i + 1) node2

/-- `search(text, partialMatch)` (src/trie.ts). -/
def search (t : ACTrie) (text : List Char) (partialMatch : Bool) : List TrieMatch :=
  searchGo t (lowerStr text) partialMatch (lowerStr text) 0 []

/-! ### Claim C4: the word-character class

Claim C4 describes the boundary check's word characters as "ASCII
letters/digits and the supported Arabic block ranges" — but the source
uses `\w`, which also counts the underscore.  We embed the claim's class
and the search that would result from it. -/

/-- The word-character class as claim C4 words it: ASCII letters and
digits and the supported Arabic blocks — no underscore. -/
def isWordCharSpecC4 (c : Char) : Bool :=
  ('a' ≤ c ∧ c ≤ 'z') ∨ ('A' ≤ c ∧ c ≤ 'Z') ∨ ('0' ≤ c ∧ c ≤ '9') ∨
  (0x0600 ≤ c.toNat ∧ c.toNat ≤ 0x06FF) ∨
  (0x0750 ≤ c.toNat ∧ c.toNat ≤ 0x077F) ∨
  (0x08A0 ≤ c.toNat ∧ c.toNat ≤ 0x08FF)

def nonWordAtSpec (text : List Char) (i : Nat) : Bool :=
  match text.get? i with
  | some ch => ! isWordCharSpecC4 ch
  | none => true

def isWordBoundarySpec (text : List Char) (s e : Nat) : Bool :=
  (s = 0 ∨ nonWordAtSpec text (s - 1) = true) ∧ (e ≥ text.length ∨ nonWordAtSpec text e = true)

def collectGoSpec (t : ACTrie) (textNorm : List Char) (partialMatch : Bool) (i : Nat) :
    Nat → Option (List Char) → List TrieMatch
  | 0, _ => []
  | Nat.succ k, fn =>
      match fn with
      | none => []
      | some p =>
          if p = [] then []
          else
            let rest := collectGoSpec t textNorm partialMatch i k (lookupFail t.fail p)
            match t.terms.lookup p with
            | some e =>
                let wordLength := e.1.length
                let position := i + 1 - wordLength
                if partialMatch ∨ isWordBoundarySpec textNorm position (position + wordLength) then
                  ⟨e.1, e.2.1, e.2.2, position, wordLength⟩ :: rest
                else rest
            | none => rest

def searchGoSpec (t : ACTrie) (textNorm : List Char) (partialMatch : Bool) :
    List Char → Nat → List Char → List TrieMatch
  | [], _, _ => []
  | c :: rest, i, node =>
      let node1 := descend t.paths t.fail c node.length node
      let node2 := if hasChild t.paths node1 c then node1 ++ [c] else node1
      collectGoSpec t textNorm partialMatch i (node2.length + 1) (some node2) ++
        searchGoSpec t textNorm partialMatch rest (i + 1) node2

/-- `search` as claim C4 describes it (underscore is not a word char). -/
def searchSpecC4 (t : ACTrie) (text : List Char) (partialMatch : Bool) : List TrieMatch :=
  searchGoSpec t (lowerStr text) partialMatch (lowerStr text) 0 []

/-- C4 counterexample: pattern `"ass"`, text `"ass_"`, non-partial mode.
The underscore is a `\w` word character, so the source rejects the match
at offset 0; under the claim's word-character class (no underscore) the
match would be returned. -/
theorem search_boundary_counterexample :
    search (buildFailureLinks (insert emptyTrie "ass".data 2 [])) "ass_".data false = [] ∧
      searchSpecC4 (buildFailureLinks (insert emptyTrie "ass".data 2 [])) "ass_".data false =
        [⟨"ass".data, 2, [], 0, 3⟩] := by
  decide

theorem collectGo_boundary (t : ACTrie) (textNorm : List Char) (i : Nat) :
    ∀ (fuel : Nat) (fn : Option (List Char)) (m : TrieMatch),
      m ∈ collectGo t textNorm false i fuel fn →
      isWordBoundary textNorm m.position (m.position + m.length) = true := by
  intro fuel
  induction fuel with
  | zero =>
      intro fn m hm
      exact absurd hm (List.not_mem_nil m)
  | succ k ih =>
      intro fn m hm
      cases fn with
      | none =>
          simp only [collectGo] at hm
          exact absurd hm (List.not_mem_nil m)
      | some p =>
          simp only [collectGo] at hm
          by_cases hp : p = []
          · rw [if_pos hp] at hm
            exact absurd hm (List.not_mem_nil m)
          · rw [if_neg hp] at hm
            split at hm
            · split at hm
              · rename_i e heq hb
                rcases List.mem_cons.mp hm with he | hmem
                · subst he
                  rcases hb with hb | hb
                  · cases hb
                  · exact hb
                · exact ih _ m hmem
              · exact ih _ m hm
            · exact ih _ m hm

theorem searchGo_boundary (t : ACTrie) (textNorm : List Char) :
    ∀ (rest : List Char) (i : Nat) (node : List Char) (m : TrieMatch),
      m ∈ searchGo t textNorm false rest i node →
      isWordBoundary textNorm m.position (m.position + m.length) = true := by
  intro rest
  induction rest with
  | nil =>
      intro i node m hm
      exact absurd hm (List.not_mem_nil m)
  | cons c rest ih =>
      intro i node m hm
      simp only [searchGo] at hm
      rcases List.mem_append.mp hm with h | h
      · exact collectGo_boundary t textNorm i _ _ m h
      · exact ih (i + 1) _ m h

set_option maxRecDepth 10000 in
/-- C4, amended: in non-partial mode every match returned by `search` has
both offsets at a boundary of the source's word-character class — `\w`
(ASCII letters, digits **and underscore**) plus the supported Arabic
blocks — and concretely, pattern `"ass"` in `"assessment"` returns no
match in non-partial mode and the offset-0, length-3 match in partial
mode.  (The claim's class without the underscore is refuted separately.) -/
theorem search_nonpartial_boundary (t : ACTrie) (text : List Char) :
    (∀ m ∈ search t text false,
      isWordBoundary (lowerStr text) m.position (m.position + m.length) = true) ∧
    search (buildFailureLinks (insert emptyTrie "ass".data 2 [])) "assessment".data false = [] ∧
    search (buildFailureLinks (insert emptyTrie "ass".data 2 [])) "assessment".data true =
      [⟨"ass".data, 2, [], 0, 3⟩] := by
  refine ⟨?_, by decide, by decide⟩
  intro m hm
  exact searchGo_boundary t (lowerStr text) (lowerStr text) 0 [] m hm

end Trie
namespace Trie

/-! ## Claim C1: completeness of partial-match search

The failure link of a node, as `buildFailureLinks` computes it, is the
longest proper suffix of its path that is itself a node; the search state
after consuming a prefix of the text is the longest suffix of that prefix
that is a node; and the collection loop walks the failure chain, which
visits every node-suffix of the current node.  Together these give
completeness: every occurrence of every inserted pattern in the
lowercased text is reported, in partial-match mode, at its start offset
with the pattern's length.  The development below proves each part. -/

theorem lookup_append {β : Type} (k : List Char) :
    ∀ (l₁ l₂ : List (List Char × β)),
      (l₁ ++ l₂).lookup k = ((l₁.lookup k).elim (l₂.lookup k) some) := by
  intro l₁ l₂
  induction l₁ with
  | nil => rfl
  | cons e rest ih =>
      obtain ⟨k0, v0⟩ := e
      rw [List.cons_append, List.lookup_cons, List.lookup_cons]
      by_cases hk : k == k0
      · simp [hk]
      · simp only [Bool.not_eq_true] at hk
        simp [hk, ih]

theorem lookup_append_left {β : Type} {k : List Char} {l₁ : List (List Char × β)}
    (l₂ : List (List Char × β)) {v : β} (h : l₁.lookup k = some v) :
    (l₁ ++ l₂).lookup k = some v := by
  rw [lookup_append, h]
  rfl

/-- A successful `List.lookup` returns the value of some entry. -/
theorem lookup_mem {β : Type} {k : List Char} {v : β} :
    ∀ {l : List (List Char × β)}, l.lookup k = some v → (k, v) ∈ l := by
  intro l
  induction l with
  | nil => intro h; cases h
  | cons e rest ih =>
      obtain ⟨k0, v0⟩ := e
      intro h
      rw [List.lookup_cons] at h
      by_cases hk : k == k0
      · simp only [hk] at h
        cases h
        have hk' : k = k0 := by simpa using hk
        rw [hk']
        exact List.mem_cons_self _ _
      · have hk' : (k == k0) = false := by simpa using hk
        simp only [hk'] at h
        exact List.mem_cons_of_mem _ (ih h)

/-- A key among the keys of an association list looks up successfully. -/
theorem lookup_isSome_of_mem {β : Type} {k : List Char} :
    ∀ {l : List (List Char × β)}, k ∈ l.map Prod.fst →
      ∃ v, l.lookup k = some v := by
  intro l
  induction l with
  | nil => intro h; cases h
  | cons e rest ih =>
      obtain ⟨k0, v0⟩ := e
      intro h
      rw [List.lookup_cons]
      by_cases hk : k == k0
      · exact ⟨v0, by simp only [hk]⟩
      · have hk' : (k == k0) = false := by simpa using hk
        simp only [hk']
        simp only [List.map_cons, List.mem_cons] at h
        rcases h with h' | h'
        · exact absurd (by simp [h']) hk
        · exact ih h'

theorem suffix_snoc_iff (t s : List Char) (c : Char) :
    t <:+ s ++ [c] ↔ t = [] ∨ ∃ r, r <:+ s ∧ t = r ++ [c] := by
  constructor
  · intro h
    have h' : t.reverse <+: (s ++ [c]).reverse := List.reverse_prefix.mpr h
    simp only [List.reverse_append, List.reverse_cons, List.reverse_nil,
      List.nil_append, List.singleton_append] at h'
    rcases List.prefix_cons_iff.mp h' with h0 | ⟨r', htr, hpre⟩
    · exact Or.inl (by simpa using congrArg List.reverse h0)
    · refine Or.inr ⟨r'.reverse, ?_, ?_⟩
      · rw [← List.reverse_prefix]
        simpa using hpre
      · simpa using congrArg List.reverse htr
  · rintro (rfl | ⟨r, ⟨u, hu⟩, rfl⟩)
    · exact List.nil_suffix
    · exact ⟨u, by rw [← List.append_assoc, hu]⟩

theorem suffix_append_snoc {t s : List Char} (c : Char) (h : t <:+ s) :
    t ++ [c] <:+ s ++ [c] := by
  rcases h with ⟨u, hu⟩
  exact ⟨u, by rw [← List.append_assoc, hu]⟩

theorem suffix_antisymm {a b : List Char} (h1 : a <:+ b) (h2 : b <:+ a) : a = b := by
  rcases h1 with ⟨u, hu⟩
  have hab : a.length = b.length :=
    Nat.le_antisymm (List.IsSuffix.length_le ⟨u, hu⟩) (List.IsSuffix.length_le h2)
  have hlen := congrArg List.length hu
  simp only [List.length_append] at hlen
  have hu0 : u = [] := List.length_eq_zero.mp (by omega)
  rw [hu0] at hu
  simpa using hu

/-- A suffix of `p` other than `p` itself is a suffix of `p.tail`. -/
theorem suffix_tail_of_ne {t p : List Char} (h : t <:+ p) (hne : t ≠ p) : t <:+ p.tail := by
  cases p with
  | nil =>
      rcases List.suffix_nil.mp h with rfl
      exact List.nil_suffix
  | cons a p' =>
      rcases List.suffix_cons_iff.mp h with h' | h'
      · exact absurd h' hne
      · exact h'

/-- The longest suffix of `s` (including `s` itself) that is a node path;
`[]` when no suffix is one. -/
def longestSuffixIn (paths : List (List Char)) (s : List Char) : List Char :=
  (s.tails.find? (fun t => t ∈ paths)).getD []

/-- The canonical failure target of the node at path `p`: its longest
proper suffix that is a node, the root (`[]`) otherwise. -/
def canonFail (paths : List (List Char)) (p : List Char) : List Char :=
  longestSuffixIn paths p.tail

theorem longestSuffixIn_cons (paths : List (List Char)) (c : Char) (s : List Char) :
    longestSuffixIn paths (c :: s) =
      if (c :: s) ∈ paths then c :: s else longestSuffixIn paths s := by
  unfold longestSuffixIn
  rw [List.tails_cons, List.find?_cons]
  by_cases h : (c :: s) ∈ paths
  · simp [h]
  · simp [h]

theorem longestSuffixIn_nil (paths : List (List Char)) :
    longestSuffixIn paths [] = if ([] : List Char) ∈ paths then [] else [] := by
  unfold longestSuffixIn
  by_cases h : ([] : List Char) ∈ paths <;> simp [List.find?, h]

theorem longestSuffixIn_suffix (paths : List (List Char)) :
    ∀ s : List Char, longestSuffixIn paths s <:+ s := by
  intro s
  induction s with
  | nil =>
      rw [longestSuffixIn_nil]
      split <;> exact List.nil_suffix
  | cons c rest ih =>
      rw [longestSuffixIn_cons]
      split
      · exact List.suffix_refl _
      · exact List.IsSuffix.trans ih (List.suffix_cons c rest)

theorem longestSuffixIn_mem (paths : List (List Char)) :
    ∀ s : List Char, longestSuffixIn paths s ∈ paths ∨ longestSuffixIn paths s = [] := by
  intro s
  induction s with
  | nil =>
      rw [longestSuffixIn_nil]
      split <;> exact Or.inr rfl
  | cons c rest ih =>
      rw [longestSuffixIn_cons]
      split
      · exact Or.inl (by assumption)
      · exact ih

/-- Maximality: every node-path suffix of `s` is a suffix of
`longestSuffixIn paths s`. -/
theorem longestSuffixIn_max (paths : List (List Char)) :
    ∀ (s t : List Char), t <:+ s → t ∈ paths → t <:+ longestSuffixIn paths s := by
  intro s
  induction s with
  | nil =>
      intro t ht hmem
      rcases List.suffix_nil.mp ht with rfl
      rw [longestSuffixIn_nil]
      split <;> exact List.nil_suffix
  | cons c rest ih =>
      intro t ht hmem
      rw [longestSuffixIn_cons]
      by_cases h : (c :: rest) ∈ paths
      · rw [if_pos h]
        exact ht
      · rw [if_neg h]
        rcases List.suffix_cons_iff.mp ht with h' | h'
        · exact absurd (h' ▸ hmem) h
        · exact ih t h' hmem

/-- Uniqueness: a node-path (or root) suffix of `s` dominating every
node-path suffix of `s` is `longestSuffixIn paths s`. -/
theorem longestSuffixIn_eq (paths : List (List Char)) (hnr : [] ∉ paths)
    {s x : List Char} (hx : x <:+ s) (hxm : x ∈ paths ∨ x = [])
    (hdom : ∀ t, t <:+ s → t ∈ paths → t <:+ x) :
    longestSuffixIn paths s = x := by
  have hL := longestSuffixIn_suffix paths s
  rcases longestSuffixIn_mem paths s with hLm | hL0
  · have h1 : longestSuffixIn paths s <:+ x := hdom _ hL hLm
    have h2 : x <:+ longestSuffixIn paths s := by
      rcases hxm with hxm | rfl
      · exact longestSuffixIn_max paths s x hx hxm
      · exact List.nil_suffix
    exact suffix_antisymm h1 h2
  · rcases hxm with hxm | rfl
    · have h3 := longestSuffixIn_max paths s x hx hxm
      rw [hL0] at h3
      have h4 := List.suffix_nil.mp h3
      exact absurd (h4 ▸ hxm) hnr
    · exact hL0

end Trie
namespace Trie

/-! ### Structure of the trie built by `insert`/`insertAll` -/

theorem prefixesOf_mem (w p : List Char) :
    p ∈ prefixesOf w ↔ p ≠ [] ∧ p <+: w := by
  unfold prefixesOf
  constructor
  · intro h
    rcases List.mem_map.mp h with ⟨i, hi, rfl⟩
    have hi' : i < w.length := List.mem_range.mp hi
    constructor
    · intro he
      have := congrArg List.length he
      simp only [List.length_take, List.length_nil] at this
      omega
    · exact List.take_prefix _ _
  · rintro ⟨hne, hpre⟩
    have hlen : 0 < p.length := List.length_pos.mpr hne
    have hle : p.length ≤ w.length := List.IsPrefix.length_le hpre
    refine List.mem_map.mpr ⟨p.length - 1, List.mem_range.mpr (by omega), ?_⟩
    have : p.length - 1 + 1 = p.length := by omega
    rw [this, ← List.prefix_iff_eq_take.mp hpre]

theorem insert_paths_mem (t : ACTrie) (w : List Char) (sv : Int) (ct : List Char)
    (p : List Char) :
    p ∈ (insert t w sv ct).paths ↔ p ∈ t.paths ∨ p ∈ prefixesOf (lowerStr w) := by
  show p ∈ t.paths ++ (prefixesOf (lowerStr w)).filter (fun q => q ∉ t.paths) ↔ _
  rw [List.mem_append, List.mem_filter]
  constructor
  · rintro (h | ⟨h, _⟩)
    · exact Or.inl h
    · exact Or.inr h
  · rintro (h | h)
    · exact Or.inl h
    · by_cases hp : p ∈ t.paths
      · exact Or.inl hp
      · exact Or.inr ⟨h, by simpa using hp⟩

/-- The structural invariant of the node-path list: the root is not a
node, paths are unduplicated, and every nonempty prefix of a node path is
a node path. -/
structure TrieInv (t : ACTrie) : Prop where
  not_root : [] ∉ t.paths
  nodup : t.paths.Nodup
  closed : ∀ q ∈ t.paths, ∀ r, r ≠ [] → r <+: q → r ∈ t.paths

theorem prefixesOf_nodup (w : List Char) : (prefixesOf w).Nodup := by
  unfold prefixesOf
  refine List.Nodup.map_on ?_ (List.nodup_range _)
  intro i hi j hj he
  have hi' : i < w.length := List.mem_range.mp hi
  have hj' : j < w.length := List.mem_range.mp hj
  have := congrArg List.length he
  simp only [List.length_take] at this
  omega

theorem insert_inv {t : ACTrie} (h : TrieInv t) (w : List Char) (sv : Int) (ct : List Char) :
    TrieInv (insert t w sv ct) := by
  refine ⟨?_, ?_, ?_⟩
  · intro hmem
    rcases (insert_paths_mem t w sv ct []).mp hmem with h' | h'
    · exact h.not_root h'
    · exact ((prefixesOf_mem _ _).mp h').1 rfl
  · show (t.paths ++ (prefixesOf (lowerStr w)).filter (fun q => q ∉ t.paths)).Nodup
    refine List.Nodup.append h.nodup (List.Nodup.filter _ (prefixesOf_nodup _)) ?_
    intro a ha hb
    have := (List.mem_filter.mp hb).2
    simp only [decide_eq_true_eq] at this
    exact this ha
  · intro q hq r hr hpre
    rcases (insert_paths_mem t w sv ct q).mp hq with h' | h'
    · exact (insert_paths_mem t w sv ct r).mpr (Or.inl (h.closed q h' r hr hpre))
    · refine (insert_paths_mem t w sv ct r).mpr (Or.inr ?_)
      rcases (prefixesOf_mem _ _).mp h' with ⟨_, hq2⟩
      exact (prefixesOf_mem _ _).mpr ⟨hr, hpre.trans hq2⟩

theorem emptyTrie_inv : TrieInv emptyTrie := by
  refine ⟨?_, ?_, ?_⟩
  · intro h
    cases h
  · exact List.nodup_nil
  · intro q hq
    cases hq

theorem foldl_insert_inv :
    ∀ (ws : List (List Char × Int × List Char)) (t : ACTrie), TrieInv t →
      TrieInv (ws.foldl (fun t w => insert t w.1 w.2.1 w.2.2) t) := by
  intro ws
  induction ws with
  | nil => intro t h; exact h
  | cons u rest ih =>
      intro t h
      rw [List.foldl_cons]
      exact ih _ (insert_inv h _ _ _)

theorem insertAll_inv (ws : List (List Char × Int × List Char)) : TrieInv (insertAll ws) :=
  foldl_insert_inv ws emptyTrie emptyTrie_inv

theorem foldl_insert_paths_mono :
    ∀ (ws : List (List Char × Int × List Char)) (t : ACTrie) (p : List Char),
      p ∈ t.paths → p ∈ (ws.foldl (fun t w => insert t w.1 w.2.1 w.2.2) t).paths := by
  intro ws
  induction ws with
  | nil => intro t p h; exact h
  | cons u rest ih =>
      intro t p h
      rw [List.foldl_cons]
      exact ih _ p ((insert_paths_mem _ _ _ _ _).mpr (Or.inl h))

theorem foldl_insert_word_mem :
    ∀ (ws : List (List Char × Int × List Char)) (t : ACTrie) (w : List Char × Int × List Char),
      w ∈ ws → lowerStr w.1 ≠ [] →
      lowerStr w.1 ∈ (ws.foldl (fun t w => insert t w.1 w.2.1 w.2.2) t).paths := by
  intro ws
  induction ws with
  | nil =>
      intro t w h
      cases h
  | cons u rest ih =>
      intro t w hw hne
      rw [List.foldl_cons]
      rcases List.mem_cons.mp hw with rfl | hw'
      · refine foldl_insert_paths_mono rest _ _ ?_
        exact (insert_paths_mem _ _ _ _ _).mpr
          (Or.inr ((prefixesOf_mem _ _).mpr ⟨hne, List.prefix_refl _⟩))
      · exact ih _ w hw' hne

/-! ### The terminal data after `insertAll` -/

theorem lookup_filter_ne {β : Type} {k nw : List Char} (hne : k ≠ nw) :
    ∀ (l : List (List Char × β)),
      (l.filter (fun e => e.1 ≠ nw)).lookup k = l.lookup k := by
  intro l
  induction l with
  | nil => rfl
  | cons e rest ih =>
      obtain ⟨k0, v0⟩ := e
      rw [List.filter_cons]
      by_cases h0 : k0 = nw
      · have hd : (decide ¬(k0, v0).1 = nw) = false := by simp [h0]
        rw [hd]
        simp only [Bool.false_eq_true, if_false]
        rw [ih, List.lookup_cons]
        have : (k == k0) = false := by
          simp only [beq_eq_false_iff_ne, ne_eq]
          intro he
          exact hne (he.trans h0)
        simp [this]
      · have hd : (decide ¬(k0, v0).1 = nw) = true := by simp [h0]
        rw [hd]
        simp only [if_true]
        rw [List.lookup_cons, List.lookup_cons]
        by_cases hk : k == k0
        · simp [hk]
        · have hk' : (k == k0) = false := by simpa using hk
          simp only [hk']
          exact ih

theorem lookup_none_of_keys {β : Type} {k : List Char} :
    ∀ {l : List (List Char × β)}, (∀ e ∈ l, e.1 ≠ k) → l.lookup k = none := by
  intro l
  induction l with
  | nil => intro _; rfl
  | cons e rest ih =>
      obtain ⟨k0, v0⟩ := e
      intro h
      rw [List.lookup_cons]
      have h0 : k0 ≠ k := h (k0, v0) (List.mem_cons_self _ _)
      have : (k == k0) = false := by
        simp only [beq_eq_false_iff_ne, ne_eq]
        intro he
        exact h0 he.symm
      simp only [this]
      exact ih (fun e he => h e (List.mem_cons_of_mem _ he))

theorem insert_lookup_self (t : ACTrie) (w : List Char) (sv : Int) (ct : List Char) :
    (insert t w sv ct).terms.lookup (lowerStr w) = some (w, sv, ct) := by
  show (t.terms.filter (fun e => e.1 ≠ lowerStr w) ++
    [(lowerStr w, (w, sv, ct))]).lookup (lowerStr w) = some (w, sv, ct)
  rw [lookup_append]
  have h1 : (t.terms.filter (fun e => e.1 ≠ lowerStr w)).lookup (lowerStr w) = none := by
    refine lookup_none_of_keys ?_
    intro e he
    have := (List.mem_filter.mp he).2
    simpa using this
  rw [h1]
  simp [List.lookup_cons]

theorem insert_lookup_other (t : ACTrie) (w : List Char) (sv : Int) (ct : List Char)
    {k : List Char} (hne : k ≠ lowerStr w) :
    (insert t w sv ct).terms.lookup k = t.terms.lookup k := by
  show (t.terms.filter (fun e => e.1 ≠ lowerStr w) ++
    [(lowerStr w, (w, sv, ct))]).lookup k = t.terms.lookup k
  rw [lookup_append, lookup_filter_ne hne]
  have h2 : ([(lowerStr w, (w, sv, ct))] : List _).lookup k = none := by
    refine lookup_none_of_keys ?_
    intro e he
    rcases List.mem_singleton.mp he with rfl
    exact fun h => hne h.symm
  rw [h2]
  cases t.terms.lookup k <;> rfl

theorem foldl_insert_lookup_preserve :
    ∀ (ws : List (List Char × Int × List Char)) (t : ACTrie)
      (w0 : List Char × Int × List Char),
      (∀ u ∈ ws, lowerStr u.1 = lowerStr w0.1 → u = w0) →
      t.terms.lookup (lowerStr w0.1) = some (w0.1, w0.2.1, w0.2.2) →
      (ws.foldl (fun t w => insert t w.1 w.2.1 w.2.2) t).terms.lookup (lowerStr w0.1) =
        some (w0.1, w0.2.1, w0.2.2) := by
  intro ws
  induction ws with
  | nil => intro t w0 _ h; exact h
  | cons u rest ih =>
      intro t w0 hall h
      rw [List.foldl_cons]
      refine ih _ w0 (fun v hv => hall v (List.mem_cons_of_mem _ hv)) ?_
      by_cases he : lowerStr w0.1 = lowerStr u.1
      · have hu : u = w0 := hall u (List.mem_cons_self _ _) he.symm
        subst hu
        exact insert_lookup_self t u.1 u.2.1 u.2.2
      · rw [insert_lookup_other t u.1 u.2.1 u.2.2 he]
        exact h

theorem foldl_insert_lookup :
    ∀ (ws : List (List Char × Int × List Char)) (t : ACTrie)
      (w : List Char × Int × List Char), w ∈ ws →
      (∀ u ∈ ws, lowerStr u.1 = lowerStr w.1 → u = w) →
      (ws.foldl (fun t w => insert t w.1 w.2.1 w.2.2) t).terms.lookup (lowerStr w.1) =
        some (w.1, w.2.1, w.2.2) := by
  intro ws
  induction ws with
  | nil =>
      intro t w hw
      cases hw
  | cons u rest ih =>
      intro t w hw huniq
      rw [List.foldl_cons]
      by_cases he : u = w
      · subst he
        refine foldl_insert_lookup_preserve rest _ u
          (fun v hv => huniq v (List.mem_cons_of_mem _ hv)) ?_
        exact insert_lookup_self t u.1 u.2.1 u.2.2
      · rcases List.mem_cons.mp hw with rfl | hw'
        · exact absurd rfl he
        · exact ih _ w hw' (fun v hv => huniq v (List.mem_cons_of_mem _ hv))

theorem insertAll_lookup (ws : List (List Char × Int × List Char))
    (w : List Char × Int × List Char) (hw : w ∈ ws)
    (huniq : ∀ u ∈ ws, lowerStr u.1 = lowerStr w.1 → u = w) :
    (insertAll ws).terms.lookup (lowerStr w.1) = some (w.1, w.2.1, w.2.2) :=
  foldl_insert_lookup ws emptyTrie w hw huniq

end Trie
namespace Trie

/-! ### The failure walk computes the canonical failure link -/

theorem canonFail_suffix (paths : List (List Char)) (p : List Char) :
    canonFail paths p <:+ p :=
  List.IsSuffix.trans (longestSuffixIn_suffix paths p.tail) (List.tail_suffix p)

theorem canonFail_mem (paths : List (List Char)) (p : List Char) :
    canonFail paths p ∈ paths ∨ canonFail paths p = [] :=
  longestSuffixIn_mem paths p.tail

theorem canonFail_length (paths : List (List Char)) {p : List Char} (h : p ≠ []) :
    (canonFail paths p).length < p.length := by
  have h1 : (canonFail paths p).length ≤ p.tail.length :=
    List.IsSuffix.length_le (longestSuffixIn_suffix paths p.tail)
  have h2 : p.tail.length = p.length - 1 := by
    cases p with
    | nil => simp
    | cons a q => simp
  have h3 : 0 < p.length := List.length_pos.mpr h
  omega

theorem canonFail_max (paths : List (List Char)) {p t : List Char}
    (ht : t <:+ p) (hne : t ≠ p) (hmem : t ∈ paths) : t <:+ canonFail paths p :=
  longestSuffixIn_max paths p.tail t (suffix_tail_of_ne ht hne) hmem

theorem snoc_injective {r p : List Char} {c : Char} (h : r ++ [c] = p ++ [c]) : r = p := by
  have := congrArg List.dropLast h
  simpa [List.dropLast_concat] using this

theorem tail_append_snoc {p : List Char} (h : p ≠ []) (c : Char) :
    (p ++ [c]).tail = p.tail ++ [c] := by
  cases p with
  | nil => exact absurd rfl h
  | cons a q => rfl

/-- The failure-link walk of `buildFailureLinks`, run from a node-or-root
`s` whose failure entries (up to length bound `D`) are canonical, stops at
the longest suffix of `s` that has a `c`-child, or at the root. -/
theorem failWalk_reaches (paths : List (List Char)) (F : List (List Char × List Char))
    (c : Char) (hnr : [] ∉ paths) (D : Nat)
    (hF : ∀ q ∈ paths, q.length ≤ D → F.lookup q = some (canonFail paths q)) :
    ∀ (fuel : Nat) (s : List Char), (s ∈ paths ∨ s = []) → s.length ≤ fuel →
      s.length ≤ D →
      ∃ r, failWalk paths F c fuel (some s) = some r ∧
        (r = [] ∨ (r ∈ paths ∧ hasChild paths r c = true)) ∧ r <:+ s ∧
        (∀ t, t <:+ s → (t ∈ paths ∨ t = []) → hasChild paths t c = true → t <:+ r) := by
  intro fuel
  induction fuel with
  | zero =>
      intro s hs hfuel hD
      have hs0 : s = [] := List.length_eq_zero.mp (Nat.le_zero.mp hfuel)
      subst hs0
      refine ⟨[], rfl, Or.inl rfl, List.suffix_refl _, ?_⟩
      intro t ht _ _
      exact ht
  | succ k ih =>
      intro s hs hfuel hD
      have hstep : failWalk paths F c (k + 1) (some s) =
          (if s ≠ [] ∧ ¬ hasChild paths s c then failWalk paths F c k (lookupFail F s)
           else some s) := rfl
      by_cases hcond : s ≠ [] ∧ ¬ hasChild paths s c
      · have hsp : s ∈ paths := by
          rcases hs with hs | rfl
          · exact hs
          · exact absurd rfl hcond.1
        have hlk : lookupFail F s = some (canonFail paths s) := hF s hsp hD
        have hlen := canonFail_length paths hcond.1
        rcases ih (canonFail paths s) (canonFail_mem paths s) (by omega) (by omega) with
          ⟨r, heq, hr, hsuf, hdom⟩
        refine ⟨r, ?_, hr, ?_, ?_⟩
        · rw [hstep, if_pos hcond, hlk]
          exact heq
        · exact List.IsSuffix.trans hsuf (canonFail_suffix paths s)
        · intro t ht htm hch
          have hts : t ≠ s := by
            intro he
            rw [he] at hch
            exact hcond.2 hch
          have ht' : t <:+ canonFail paths s := by
            rcases htm with htm | rfl
            · exact canonFail_max paths ht hts htm
            · exact List.nil_suffix
          exact hdom t ht' htm hch
      · refine ⟨s, ?_, ?_, List.suffix_refl _, ?_⟩
        · rw [hstep, if_neg hcond]
        · by_cases hse : s = []
          · exact Or.inl hse
          · rcases hs with hs | rfl
            · refine Or.inr ⟨hs, ?_⟩
              rcases Decidable.not_and_iff_or_not.mp hcond with h | h
              · exact absurd hse (by simpa using h)
              · simpa using h
            · exact absurd rfl hse
        · intro t ht _ _
          exact ht

/-- The failure link `buildFailureLinks` assigns to the child `p ++ [c]`,
computed from canonical entries for nodes of length at most `D ≥ |p|`, is
the canonical one: the longest proper suffix of `p ++ [c]` that is a
node, the root otherwise. -/
theorem child_fail_eq (paths : List (List Char)) (F : List (List Char × List Char))
    (c : Char) (hnr : [] ∉ paths)
    (hcl : ∀ q ∈ paths, ∀ r, r ≠ [] → r <+: q → r ∈ paths) (D : Nat)
    (hF : ∀ q ∈ paths, q.length ≤ D → F.lookup q = some (canonFail paths q))
    (p : List Char) (hp : p ∈ paths) (hD : p.length ≤ D) :
    (match failWalk paths F c p.length (lookupFail F p) with
      | some r => if hasChild paths r c ∧ ¬(r ++ [c] = p ++ [c]) then r ++ [c] else []
      | none => []) = canonFail paths (p ++ [c]) := by
  have hpne : p ≠ [] := fun he => hnr (he ▸ hp)
  have hlk : lookupFail F p = some (canonFail paths p) := hF p hp hD
  have hlen := canonFail_length paths hpne
  rcases failWalk_reaches paths F c hnr D hF p.length (canonFail paths p)
      (canonFail_mem paths p) (by omega) (by omega) with ⟨r, heq, hr, hsuf, hdom⟩
  rw [hlk, heq]
  have hrp : r <:+ p.tail :=
    List.IsSuffix.trans hsuf (longestSuffixIn_suffix paths p.tail)
  have hrlen : r.length < p.length := by
    have h1 := List.IsSuffix.length_le hrp
    have h2 : p.tail.length = p.length - 1 := by
      cases p with
      | nil => exact absurd rfl hpne
      | cons a q => simp
    have h3 : 0 < p.length := List.length_pos.mpr hpne
    omega
  have hrne : ¬(r ++ [c] = p ++ [c]) := by
    intro he
    have := congrArg List.length (snoc_injective he)
    omega
  have htailc : (p ++ [c]).tail = p.tail ++ [c] := tail_append_snoc hpne c
  show (if hasChild paths r c ∧ ¬(r ++ [c] = p ++ [c]) then r ++ [c] else []) =
    canonFail paths (p ++ [c])
  unfold canonFail
  rw [htailc]
  by_cases hch : hasChild paths r c = true
  · rw [if_pos ⟨hch, hrne⟩]
    refine (longestSuffixIn_eq paths hnr (suffix_append_snoc c hrp)
      (Or.inl (by simpa [hasChild] using hch)) ?_).symm
    intro t ht htm
    have htne : t ≠ [] := fun he => hnr (he ▸ htm)
    rcases (suffix_snoc_iff t p.tail c).mp ht with rfl | ⟨t0, ht0, rfl⟩
    · exact absurd rfl htne
    · have ht0m : t0 ∈ paths ∨ t0 = [] := by
        by_cases h0 : t0 = []
        · exact Or.inr h0
        · exact Or.inl (hcl (t0 ++ [c]) htm t0 h0 (List.prefix_append t0 [c]))
      have hch0 : hasChild paths t0 c = true := by simpa [hasChild] using htm
      have ht0s : t0 <:+ canonFail paths p := by
        rcases ht0m with h0 | rfl
        · exact longestSuffixIn_max paths p.tail t0 ht0 h0
        · exact List.nil_suffix
      exact suffix_append_snoc c (hdom t0 ht0s ht0m hch0)
  · have hr0 : r = [] := by
      rcases hr with hr | ⟨_, hc⟩
      · exact hr
      · exact absurd hc hch
    rw [if_neg (fun hand => hch hand.1)]
    refine (longestSuffixIn_eq paths hnr List.nil_suffix (Or.inr rfl) ?_).symm
    intro t ht htm
    have htne : t ≠ [] := fun he => hnr (he ▸ htm)
    rcases (suffix_snoc_iff t p.tail c).mp ht with rfl | ⟨t0, ht0, rfl⟩
    · exact absurd rfl htne
    · have ht0m : t0 ∈ paths ∨ t0 = [] := by
        by_cases h0 : t0 = []
        · exact Or.inr h0
        · exact Or.inl (hcl (t0 ++ [c]) htm t0 h0 (List.prefix_append t0 [c]))
      have hch0 : hasChild paths t0 c = true := by simpa [hasChild] using htm
      have ht0s : t0 <:+ canonFail paths p := by
        rcases ht0m with h0 | rfl
        · exact longestSuffixIn_max paths p.tail t0 ht0 h0
        · exact List.nil_suffix
      have := hdom t0 ht0s ht0m hch0
      rw [hr0] at this
      have ht00 := List.suffix_nil.mp this
      rw [ht00] at hch0
      rw [hr0] at hch
      exact absurd hch0 hch

end Trie
namespace Trie

/-! ### The BFS of `buildFailureLinks` assigns every node its canonical link -/

theorem childrenOf_mem {paths : List (List Char)} {p : List Char} {c : Char}
    (h : c ∈ childrenOf paths p) : (p ++ [c]) ∈ paths := by
  unfold childrenOf at h
  rcases List.mem_filterMap.mp h with ⟨q, hq, hf⟩
  by_cases hcond : q ≠ [] ∧ q.dropLast = p
  · rw [if_pos hcond] at hf
    have hlast : q.getLast hcond.1 = c := by
      have h0 := List.getLast?_eq_getLast q hcond.1
      rw [h0] at hf
      exact Option.some_injective _ hf
    have hpc : p ++ [c] = q := by
      rw [← hcond.2, ← hlast]
      exact List.dropLast_append_getLast hcond.1
    rw [hpc]
    exact hq
  · rw [if_neg hcond] at hf
    cases hf

theorem childrenOf_complete {paths : List (List Char)} {p : List Char} {c : Char}
    (h : (p ++ [c]) ∈ paths) : c ∈ childrenOf paths p := by
  unfold childrenOf
  refine List.mem_filterMap.mpr ⟨p ++ [c], h, ?_⟩
  rw [if_pos ⟨by simp, List.dropLast_concat⟩]
  simp

theorem childrenOf_nodup {paths : List (List Char)} (h : paths.Nodup) (p : List Char) :
    (childrenOf paths p).Nodup := by
  unfold childrenOf
  refine List.Nodup.filterMap ?_ h
  intro q1 q2 c hc1 hc2
  have h1 : q1 = p ++ [c] := by
    by_cases hcond : q1 ≠ [] ∧ q1.dropLast = p
    · rw [if_pos hcond] at hc1
      have hf1 : q1.getLast? = some c := Option.mem_def.mp hc1
      have hlast : q1.getLast hcond.1 = c := by
        have h0 := List.getLast?_eq_getLast q1 hcond.1
        rw [h0] at hf1
        exact Option.some_injective _ hf1
      have hpc : p ++ [c] = q1 := by
        rw [← hcond.2, ← hlast]
        exact List.dropLast_append_getLast hcond.1
      exact hpc.symm
    · rw [if_neg hcond] at hc1
      cases hc1
  have h2 : q2 = p ++ [c] := by
    by_cases hcond : q2 ≠ [] ∧ q2.dropLast = p
    · rw [if_pos hcond] at hc2
      have hf2 : q2.getLast? = some c := Option.mem_def.mp hc2
      have hlast : q2.getLast hcond.1 = c := by
        have h0 := List.getLast?_eq_getLast q2 hcond.1
        rw [h0] at hf2
        exact Option.some_injective _ hf2
      have hpc : p ++ [c] = q2 := by
        rw [← hcond.2, ← hlast]
        exact List.dropLast_append_getLast hcond.1
      exact hpc.symm
    · rw [if_neg hcond] at hc2
      cases hc2
  rw [h1, h2]

theorem mem_keys_iff {F : List (List Char × List Char)} {k : List Char} :
    k ∈ F.map Prod.fst ↔ ∃ v, (k, v) ∈ F := by
  constructor
  · intro h
    rcases List.mem_map.mp h with ⟨e, he, rfl⟩
    exact ⟨e.2, he⟩
  · rintro ⟨v, hv⟩
    exact List.mem_map.mpr ⟨(k, v), hv, rfl⟩

theorem lookup_canonical {paths : List (List Char)} {F : List (List Char × List Char)}
    (hE : ∀ e ∈ F, e.1 ∈ paths ∧ e.2 = canonFail paths e.1) {k : List Char}
    (hk : k ∈ F.map Prod.fst) : F.lookup k = some (canonFail paths k) := by
  rcases lookup_isSome_of_mem hk with ⟨v, hv⟩
  have hcan := (hE (k, v) (lookup_mem hv)).2
  rw [hv]
  exact congrArg some hcan

/-- Removing one fresh element from the exclusion set of a `∉`-filter over
an unduplicated list grows the filtered length by exactly one. -/
theorem filter_not_mem_snoc_length {paths : List (List Char)} (hnd : paths.Nodup)
    (K : List (List Char)) {s : List Char} (hs : s ∈ paths) (hsK : s ∉ K) :
    (paths.filter (fun p => p ∉ K)).length =
      (paths.filter (fun p => p ∉ K ++ [s])).length + 1 := by
  induction paths with
  | nil => cases hs
  | cons h rest ih =>
      rw [List.filter_cons, List.filter_cons]
      by_cases hhs : h = s
      · subst hhs
        have hd1 : (decide (h ∉ K)) = true := by simpa using hsK
        have hd2 : (decide (h ∉ K ++ [h])) = false := by simp
        rw [hd1, hd2]
        simp only [if_true, Bool.false_eq_true, if_false, List.length_cons]
        have hrest : ∀ x ∈ rest, x ≠ h := by
          intro x hx he
          exact (List.nodup_cons.mp hnd).1 (he ▸ hx)
        have : rest.filter (fun p => p ∉ K) = rest.filter (fun p => p ∉ K ++ [h]) := by
          refine List.filter_congr ?_
          intro x hx
          have hxh : x ≠ h := hrest x hx
          simp [List.mem_append, hxh]
        rw [this]
      · rcases List.mem_cons.mp hs with he | hs'
        · exact absurd he.symm hhs
        · have hnd' : rest.Nodup := (List.nodup_cons.mp hnd).2
          have heq : (decide (h ∉ K ++ [s])) = (decide (h ∉ K)) := by
            simp [List.mem_append, hhs]
          rw [heq]
          by_cases hin : h ∉ K
          · have : (decide (h ∉ K)) = true := by simpa using hin
            rw [this]
            simp only [if_true, List.length_cons]
            rw [ih hnd' hs']
          · have : (decide (h ∉ K)) = false := by simpa using hin
            rw [this]
            simp only [Bool.false_eq_true, if_false]
            exact ih hnd' hs'

/-- Adding a block of fresh elements to the exclusion set shrinks the
filtered length by exactly the block's size. -/
theorem filter_not_mem_append_length {paths : List (List Char)} (hnd : paths.Nodup) :
    ∀ (S K : List (List Char)), S.Nodup → (∀ x ∈ S, x ∈ paths ∧ x ∉ K) →
      (paths.filter (fun p => p ∉ K ++ S)).length + S.length =
        (paths.filter (fun p => p ∉ K)).length := by
  intro S
  induction S with
  | nil =>
      intro K _ _
      simp
  | cons s S' ih =>
      intro K hSnd hS
      have hs := hS s (List.mem_cons_self _ _)
      have h1 : (paths.filter (fun p => p ∉ K)).length =
          (paths.filter (fun p => p ∉ K ++ [s])).length + 1 :=
        filter_not_mem_snoc_length hnd K hs.1 hs.2
      have h2 := ih (K ++ [s]) (List.nodup_cons.mp hSnd).2 ?_
      · have h3 : (K ++ [s]) ++ S' = K ++ s :: S' := by simp
        rw [h3] at h2
        rw [List.length_cons]
        omega
      · intro x hx
        have hxp := hS x (List.mem_cons_of_mem _ hx)
        refine ⟨hxp.1, ?_⟩
        intro hmem
        rcases List.mem_append.mp hmem with h | h
        · exact hxp.2 h
        · rcases List.mem_singleton.mp h with rfl
          exact (List.nodup_cons.mp hSnd).1 hx

/-- One pass of the BFS loop body over the children of `current`: the
queue gets the children appended, and the failure map gets one canonical
entry per child appended. -/
theorem bfs_children_foldl (paths : List (List Char)) (hnr : [] ∉ paths)
    (hcl : ∀ q ∈ paths, ∀ r, r ≠ [] → r <+: q → r ∈ paths)
    (current : List Char) (hp : current ∈ paths) :
    ∀ (cs : List Char), (∀ c ∈ cs, (current ++ [c]) ∈ paths) →
    ∀ (F0 : List (List Char × List Char)) (q0 : List (List Char)),
      (∀ q ∈ paths, q.length ≤ current.length →
        F0.lookup q = some (canonFail paths q)) →
      (∀ e ∈ F0, e.1 ∈ paths ∧ e.2 = canonFail paths e.1) →
      (cs.foldl (bfsStep paths current) (F0, q0)).2 =
          q0 ++ cs.map (fun c => current ++ [c]) ∧
      (cs.foldl (bfsStep paths current) (F0, q0)).1.map Prod.fst =
          F0.map Prod.fst ++ cs.map (fun c => current ++ [c]) ∧
      (∀ e ∈ (cs.foldl (bfsStep paths current) (F0, q0)).1,
        e.1 ∈ paths ∧ e.2 = canonFail paths e.1) ∧
      (∀ q ∈ paths, q.length ≤ current.length →
        (cs.foldl (bfsStep paths current) (F0, q0)).1.lookup q =
          some (canonFail paths q)) := by
  intro cs
  induction cs with
  | nil =>
      intro _ F0 q0 hF0 hE0
      exact ⟨by simp, by simp, hE0, hF0⟩
  | cons c cs' ih =>
      intro hcs F0 q0 hF0 hE0
      have hchild : (current ++ [c]) ∈ paths := hcs c (List.mem_cons_self _ _)
      have htgt : (match failWalk paths F0 c current.length (lookupFail F0 current) with
          | some p => if hasChild paths p c ∧ ¬(p ++ [c] = current ++ [c]) then p ++ [c]
              else []
          | none => []) = canonFail paths (current ++ [c]) :=
        child_fail_eq paths F0 c hnr hcl current.length hF0 current hp (Nat.le_refl _)
      have harg : bfsStep paths current (F0, q0) c =
          (F0 ++ [(current ++ [c], canonFail paths (current ++ [c]))],
            q0 ++ [current ++ [c]]) := by
        unfold bfsStep
        dsimp only
        rw [htgt]
      have hF1 : ∀ q ∈ paths, q.length ≤ current.length →
          (F0 ++ [(current ++ [c], canonFail paths (current ++ [c]))]).lookup q
            = some (canonFail paths q) := by
        intro q hq hlen
        exact lookup_append_left _ (hF0 q hq hlen)
      have hE1 : ∀ e ∈ F0 ++ [(current ++ [c], canonFail paths (current ++ [c]))],
          e.1 ∈ paths ∧ e.2 = canonFail paths e.1 := by
        intro e he
        rcases List.mem_append.mp he with h | h
        · exact hE0 e h
        · rcases List.mem_singleton.mp h with rfl
          exact ⟨hchild, rfl⟩
      have hstep := ih (fun c' hc' => hcs c' (List.mem_cons_of_mem _ hc'))
        (F0 ++ [(current ++ [c], canonFail paths (current ++ [c]))])
        (q0 ++ [current ++ [c]]) hF1 hE1
      rw [List.foldl_cons, harg]
      refine ⟨?_, ?_, hstep.2.2.1, hstep.2.2.2⟩
      · rw [hstep.1]
        simp
      · rw [hstep.2.1]
        simp

end Trie
